import Mathlib

/-!
Verification of the core of `metodosBusqueda_ciega_e_informada`:
the `Grafo` class, the blind BFS search (`AlgoritmoBFS` in
`3_bfs_search_ciega.py`) and the greedy hill-climbing search
(`AlgoritmoHillClimbing` in `4_hillclimbing_search_informada.py`),
together with the step traces they produce.

Modelling conventions:
* Node labels are Lean `String`s, as in Python.
* Python `float` values are modelled as exact rationals (`ℚ`): every Python
  float is a dyadic rational, and all the arithmetic the verified claims
  depend on is exact (small integers, a division by 100).
* Python's dynamically typed `float(x)` argument is modelled by `PyVal`:
  a numeric value, a string that parses as a number, or a value that
  `float` rejects (`ValueError`/`TypeError`).
* Python `set` becomes `Finset`, `deque`/`list` become `List` (with
  `popleft` = head, `append` = append at the right end), and the `padre`
  dictionary becomes a function `Node → Option (Option Node)` where `none`
  means "key absent" and `some none` means "stored value is Python `None`".
* The two unbounded `while` loops (the BFS loop and the path-reconstruction
  walk) are embedded with an explicit fuel parameter; exhausting the fuel
  yields the `Option`-value `none`.  The fuel actually passed is proved
  sufficient, so that branch is unreachable in every theorem below.
  The hill-climbing loop is likewise fuelled; its own `paso < max_iteraciones`
  bound is part of the embedded state, exactly as in the source.
* Trace records keep the source's field names; a few human-readable `accion`
  strings that interpolate lists or formatted floats are abbreviated (the
  structured fields carry the same data), while the strings that identify a
  branch (error and failure messages) are kept verbatim.
-/

abbrev Node := String

/-- A dynamically-typed value passed to Python's `float`:
a number, a numeric string (carrying the parsed value), or a non-numeric
string (`ValueError`).  Through the program's call paths `agregar_arista`
only ever receives a number (the bulk loader pre-parses) or a string (the
GUI handler), so these three cases are exhaustive; inside
`cargar_desde_json` the same `bad` case also stands for values whose field
access or parse raises `KeyError`/`TypeError`, which that loader catches
alongside `ValueError`. -/
inductive PyVal where
  | num (q : ℚ)
  | numStr (q : ℚ)
  | bad
deriving DecidableEq, Repr

/-- Python `float(x)`: succeeds on numbers and numeric strings. -/
def pyFloat : PyVal → Option ℚ
  | .num q => some q
  | .numStr q => some q
  | .bad => none

/-- Python `str.strip()`: drop leading and trailing whitespace, modelled at
the character level. -/
def trimChars (l : List Char) : List Char :=
  ((l.dropWhile Char.isWhitespace).reverse.dropWhile Char.isWhitespace).reverse

/-- Python `str(x).strip().upper()`, the endpoint normalization used by the
GUI handlers and by `cargar_desde_json` (ASCII case, as in the repository's
data; `upper` maps each character to its uppercase form). -/
def normalizar (s : String) : String :=
  String.mk ((trimChars s.data).map Char.toUpper)

/-- The `Grafo` class: adjacency lists (`defaultdict(list)`), the insertion
ordered edge list, and the node set. -/
structure Grafo where
  adyacencias : Node → List (Node × ℚ)
  aristas : List (Node × Node × ℚ)
  nodos : Finset Node

/-- `Grafo.__init__`: the empty graph. -/
def Grafo.empty : Grafo := ⟨fun _ => [], [], ∅⟩

/-- `Grafo.agregar_arista` (identical in both source files): parse the
weight with `float`; on failure return `False` and change nothing; on
success append to the adjacency list and the edge list and add both
endpoints to the node set.  NOTE: the endpoints are stored exactly as
given — this method performs no normalization. -/
def Grafo.agregar_arista (g : Grafo) (origen destino : Node) (peso : PyVal) :
    Bool × Grafo :=
  match pyFloat peso with
  | some p =>
      (true,
        { adyacencias := fun u =>
            if u = origen then g.adyacencias u ++ [(destino, p)] else g.adyacencias u
          aristas := g.aristas ++ [(origen, destino, p)]
          nodos := insert destino (insert origen g.nodos) })
  | none => (false, g)

/-- `Grafo.obtener_vecinos` (BFS file): neighbor labels only, in insertion
order; unknown nodes give `[]` (the `defaultdict`). -/
def Grafo.obtener_vecinos (g : Grafo) (nodo : Node) : List Node :=
  (g.adyacencias nodo).map Prod.fst

/-- `Grafo.obtener_vecinos_con_peso` (hill-climbing file). -/
def Grafo.obtener_vecinos_con_peso (g : Grafo) (nodo : Node) : List (Node × ℚ) :=
  g.adyacencias nodo

/-- `Grafo.obtener_peso`: weight of the first matching edge, if any. -/
def Grafo.obtener_peso (g : Grafo) (origen destino : Node) : Option ℚ :=
  ((g.adyacencias origen).find? (fun vp => vp.1 == destino)).map Prod.snd

/-- `Grafo.limpiar`. -/
def Grafo.limpiar (_g : Grafo) : Grafo := Grafo.empty

/-- One record of the JSON `"aristas"` array.  A `none` field models a
missing key (Python `KeyError`); `origen`/`destino` are the values after
`str(...)` (which never fails). -/
structure RegistroArista where
  origen : Option String
  destino : Option String
  peso : Option PyVal
deriving DecidableEq, Repr

/-- The JSON mapping consumed by `cargar_desde_json` / produced by
`exportar_a_json`: `aristas = none` models a mapping without the required
`"aristas"` key.  The optional `"posiciones"` key is not modelled: it only
feeds the Euclidean heuristic, which is abstracted below. -/
structure DatosJson where
  aristas : Option (List RegistroArista)
  nodos : Option (List Node)
deriving Repr

/-- The per-record processing of `cargar_desde_json`: extract the three
fields (KeyError if one is missing), normalize the endpoints, parse the
weight.  `none` is the `(KeyError, ValueError, TypeError)` handler's case. -/
def parseRegistro (r : RegistroArista) : Option (Node × Node × ℚ) :=
  match r.origen, r.destino, r.peso with
  | some o, some d, some pv =>
      (pyFloat pv).map (fun q => (normalizar o, normalizar d, q))
  | _, _, _ => none

/-- The loading loop of `cargar_desde_json`: `i` is the 0-based enumeration
index, malformed records append an error string carrying the 1-based index
and are skipped, well-formed records are added via `agregar_arista` (which
always succeeds on an already-parsed weight; the `False` branch is kept for
fidelity). -/
def cargarAux : List RegistroArista → ℕ → Grafo → ℕ → List String →
    Grafo × ℕ × List String
  | [], _, g, cargadas, errores => (g, cargadas, errores)
  | r :: rs, i, g, cargadas, errores =>
    match parseRegistro r with
    | some (o, d, q) =>
        match g.agregar_arista o d (.num q) with
        | (true, g2) => cargarAux rs (i + 1) g2 (cargadas + 1) errores
        | (false, g2) =>
            cargarAux rs (i + 1) g2 cargadas
              (errores ++ ["Arista " ++ toString (i + 1) ++ ": Error al procesar "
                ++ o ++ " -> " ++ d])
    | none =>
        cargarAux rs (i + 1) g cargadas
          (errores ++ ["Arista " ++ toString (i + 1) ++ ": Formato inválido"])

/-- `Grafo.cargar_desde_json`: clears the graph (`limpiar`, so the result
does not depend on the previous contents), rejects the whole load when the
`"aristas"` key is absent (the raised `ValueError`, re-wrapped by the
`except Exception` handler, is the `Except.error` case), and otherwise
loads each record independently, returning `(aristas_cargadas, errores)`
alongside the populated graph. -/
def Grafo.cargar_desde_json (_g : Grafo) (datos : DatosJson) :
    Except String (Grafo × ℕ × List String) :=
  match datos.aristas with
  | none =>
      .error "Error al procesar el archivo: El archivo JSON debe contener una clave 'aristas'"
  | some rs => .ok (cargarAux rs 0 Grafo.empty 0 [])

/-- `Grafo.exportar_a_json`: the current edge list, in insertion order,
as well-formed records; the informational `"nodos"` list. -/
def Grafo.exportar_a_json (g : Grafo) : DatosJson :=
  { aristas := some (g.aristas.map (fun e => ⟨some e.1, some e.2.1, some (.num e.2.2)⟩))
    nodos := some (g.nodos.sort (· ≤ ·)) }

/-! ### The blind BFS search (`AlgoritmoBFS`) -/

/-- One element of the list returned as the BFS trace.  The unknown-node
precondition returns a bare string (Python lists are heterogeneous), hence
the `error` constructor; every other element is a step record. -/
inductive PasoBFS where
  | error (msg : String)
  | reg (paso : ℕ) (accion : String) (cola : List Node) (visitados : Finset Node)
      (nodo_actual : Option Node) (camino_final : Option (List Node))
      (vecinos_agregados : Option (List Node))
deriving DecidableEq

/-- The `while actual is not None` walk of `_reconstruir_camino`, fuelled.
The accumulator is consed on the left, so the final list is already the
reversed (`camino[::-1]`) result.  `padre v = none` is a `KeyError`;
it and fuel exhaustion yield `none` (proved unreachable below). -/
def reconstruirAux (padre : Node → Option (Option Node)) :
    ℕ → Option Node → List Node → Option (List Node)
  | _, none, acc => some acc
  | 0, some _, _ => none
  | fuel + 1, some v, acc =>
    match padre v with
    | none => none
    | some p => reconstruirAux padre fuel p (v :: acc)

/-- `AlgoritmoBFS._reconstruir_camino` (the `inicio` parameter is unused in
the source as well): walk the parent pointers from `final`. -/
def AlgoritmoBFS.reconstruir_camino (padre : Node → Option (Option Node))
    (final : Node) (fuel : ℕ) : Option (List Node) :=
  reconstruirAux padre fuel (some final) []

/-- The neighbor-expansion `for` loop of the BFS body: enqueue, mark
visited and set the parent of every not-yet-visited neighbor, collecting
`vecinos_nuevos`. -/
def agregarVecinos (nodo_actual : Node) :
    List Node → List Node → Finset Node → (Node → Option (Option Node)) →
    List Node →
    List Node × Finset Node × (Node → Option (Option Node)) × List Node
  | [], cola, vis, padre, nuevos => (cola, vis, padre, nuevos)
  | v :: vs, cola, vis, padre, nuevos =>
    if v ∈ vis then
      agregarVecinos nodo_actual vs cola vis padre nuevos
    else
      agregarVecinos nodo_actual vs (cola ++ [v]) (insert v vis)
        (fun x => if x = v then some (some nodo_actual) else padre x)
        (nuevos ++ [v])

/-- The `while self.cola` loop of `AlgoritmoBFS.buscar_camino`, fuelled
(the loop terminates because every node is enqueued at most once; the fuel
`g.nodos.card` passed below is proved sufficient). -/
def bfsLoop (g : Grafo) (final : Node) :
    ℕ → List Node → Finset Node → (Node → Option (Option Node)) → ℕ →
    List PasoBFS → Option (Option (List Node) × List PasoBFS)
  | fuel, cola, visitados, padre, paso, pasos =>
    match cola with
    | [] =>
        some (none, pasos ++
          [.reg paso "Búsqueda terminada: No existe camino" [] visitados none none none])
    | nodo_actual :: resto =>
      match fuel with
      | 0 => none
      | fuel + 1 =>
        let pasos1 := pasos ++
          [.reg paso ("Procesar nodo: " ++ nodo_actual) resto visitados
            (some nodo_actual) none none]
        if nodo_actual = final then
          match AlgoritmoBFS.reconstruir_camino padre final g.nodos.card with
          | none => none
          | some camino =>
              some (some camino, pasos1 ++
                [.reg (paso + 1)
                  ("¡Meta encontrada! Camino: " ++ String.intercalate " → " camino)
                  resto visitados (some final) (some camino) none])
        else
          match agregarVecinos nodo_actual (g.obtener_vecinos nodo_actual)
              resto visitados padre [] with
          | (cola2, vis2, padre2, nuevos) =>
            if nuevos = [] then
              bfsLoop g final fuel cola2 vis2 padre2 (paso + 1) pasos1
            else
              bfsLoop g final fuel cola2 vis2 padre2 (paso + 2)
                (pasos1 ++
                  [.reg (paso + 1)
                    ("Agregar vecinos de " ++ nodo_actual ++ ": "
                      ++ String.intercalate ", " nuevos)
                    cola2 vis2 (some nodo_actual) none (some nuevos)])

/-- `AlgoritmoBFS.buscar_camino`: precondition check, initialization
(enqueue `inicio`, mark it visited, `padre[inicio] = None`, record step 0),
then the BFS loop. -/
def AlgoritmoBFS.buscar_camino (g : Grafo) (inicio final : Node) :
    Option (Option (List Node) × List PasoBFS) :=
  if inicio ∉ g.nodos ∨ final ∉ g.nodos then
    some (none, [.error "Error: Uno o ambos nodos no existen en el grafo"])
  else
    bfsLoop g final g.nodos.card [inicio] {inicio}
      (fun x => if x = inicio then some none else none) 1
      [.reg 0 ("Inicializar: Cola=[" ++ inicio ++ "], Visitados=[" ++ inicio ++ "]")
        [inicio] {inicio} (some inicio) none none]

/-! ### The greedy hill-climbing search (`AlgoritmoHillClimbing`) -/

/-- `AlgoritmoHillClimbing.calcular_heuristica_distancia_lineal`: the
label-derived fallback heuristic — absolute difference of the sums of the
character codes, divided by 100. -/
def valorNodo (s : String) : ℕ := (s.data.map Char.toNat).sum

def calcular_heuristica_distancia_lineal (nodo objetivo : Node) : ℚ :=
  |(valorNodo nodo : ℚ) - (valorNodo objetivo : ℚ)| / 100

/-- One entry of the `evaluaciones` list of an evaluation step. -/
structure EvalHC where
  vecino : Node
  peso : ℚ
  heuristica : ℚ
  evaluacion : ℚ
deriving DecidableEq, Repr

/-- A step record of the hill-climbing trace (the error record of the
unknown-node precondition has this same dictionary shape in the source). -/
structure RegistroHC where
  paso : ℕ
  accion : String
  nodo_actual : Option Node
  camino_actual : List Node
  costo_total : ℚ
  visitados : Finset Node
  evaluaciones : Option (List EvalHC) := none
  camino_final : Option (List Node) := none
deriving DecidableEq

/-- One pass of the neighbor-evaluation `for` loop: skip visited neighbors,
compute `f(n) = (costo_total + peso) + heuristica`, append the evaluation,
and keep the strictly better candidate (ties keep the first one; the
initial `best = none` models `mejor_evaluacion = float('inf')`). -/
def pasoEvaluacion (heur : Node → Node → ℚ) (objetivo : Node) (costo_total : ℚ)
    (visitados : Finset Node)
    (st : List EvalHC × Option (Node × ℚ × ℚ)) (vp : Node × ℚ) :
    List EvalHC × Option (Node × ℚ × ℚ) :=
  if vp.1 ∈ visitados then st
  else
    let h := heur vp.1 objetivo
    let ev := costo_total + vp.2 + h
    (st.1 ++ [⟨vp.1, vp.2, h, ev⟩],
      match st.2 with
      | none => some (vp.1, vp.2, ev)
      | some (bv, bp, be) => if ev < be then some (vp.1, vp.2, ev) else some (bv, bp, be))

/-- The whole evaluation loop over the neighbor list, returning the
`evaluaciones` list and the best `(mejor_vecino, mejor_peso,
mejor_evaluacion)` if any unvisited neighbor exists. -/
def evaluarVecinos (heur : Node → Node → ℚ) (objetivo : Node) (costo_total : ℚ)
    (visitados : Finset Node) (vecinos : List (Node × ℚ)) :
    List EvalHC × Option (Node × ℚ × ℚ) :=
  vecinos.foldl (pasoEvaluacion heur objetivo costo_total visitados) ([], none)

/-- The `while nodo_actual != objetivo and paso < max_iteraciones` loop of
`AlgoritmoHillClimbing.buscar_camino`, fuelled (each iteration adds 2 to
`paso`, so fuel `max_iteraciones` is more than sufficient; exhaustion gives
`none` and is proved unreachable).  The `heur` parameter abstracts the
source's choice between the Euclidean position heuristic and the
label-derived fallback: both are Python-float-valued, i.e. rational. -/
def hcLoop (g : Grafo) (heur : Node → Node → ℚ) (objetivo : Node) (maxIter : ℕ) :
    ℕ → Node → List Node → ℚ → Finset Node → ℕ → List RegistroHC →
    Option (Option (List Node) × List RegistroHC)
  | fuel, nodo_actual, camino, costo_total, visitados, paso, pasos =>
    if nodo_actual ≠ objetivo ∧ paso < maxIter then
      match fuel with
      | 0 => none
      | fuel + 1 =>
        match g.obtener_vecinos_con_peso nodo_actual with
        | [] =>
            some (none, pasos ++
              [{ paso := paso
                 accion := "Sin vecinos desde " ++ nodo_actual ++ " - Búsqueda fallida"
                 nodo_actual := some nodo_actual
                 camino_actual := camino
                 costo_total := costo_total
                 visitados := visitados }])
        | v :: vs =>
          match evaluarVecinos heur objetivo costo_total visitados (v :: vs) with
          | (evaluaciones, best) =>
            let pasos1 := pasos ++
              [{ paso := paso
                 accion := "Evaluar vecinos de " ++ nodo_actual
                 nodo_actual := some nodo_actual
                 camino_actual := camino
                 costo_total := costo_total
                 visitados := visitados
                 evaluaciones := some evaluaciones }]
            match best with
            | none =>
                some (none, pasos1 ++
                  [{ paso := paso + 1
                     accion := "Todos los vecinos visitados - Búsqueda fallida"
                     nodo_actual := some nodo_actual
                     camino_actual := camino
                     costo_total := costo_total
                     visitados := visitados }])
            | some (mejor_vecino, mejor_peso, _mejor_evaluacion) =>
                let camino2 := camino ++ [mejor_vecino]
                let costo2 := costo_total + mejor_peso
                let vis2 := insert mejor_vecino visitados
                hcLoop g heur objetivo maxIter fuel mejor_vecino camino2 costo2 vis2
                  (paso + 2)
                  (pasos1 ++
                    [{ paso := paso + 1
                       accion := "Moverse a " ++ mejor_vecino ++
                         (if mejor_vecino = objetivo then " - ¡OBJETIVO ALCANZADO!" else "")
                       nodo_actual := some mejor_vecino
                       camino_actual := camino2
                       costo_total := costo2
                       visitados := vis2
                       camino_final := if mejor_vecino = objetivo then some camino2 else none }])
    else
      if nodo_actual = objetivo then some (some camino, pasos)
      else
        some (none, pasos ++
          [{ paso := paso
             accion := "Máximo de iteraciones alcanzado - Búsqueda fallida"
             nodo_actual := some nodo_actual
             camino_actual := camino
             costo_total := costo_total
             visitados := visitados }])

/-- `AlgoritmoHillClimbing.buscar_camino`: precondition check (one error
record), initial state (`camino = [inicio]`, `costo = 0`,
`visitados = {inicio}`, step-0 record), `max_iteraciones = 2 * |nodos|`,
then the loop. -/
def AlgoritmoHillClimbing.buscar_camino (g : Grafo) (heur : Node → Node → ℚ)
    (inicio objetivo : Node) :
    Option (Option (List Node) × List RegistroHC) :=
  if inicio ∉ g.nodos ∨ objetivo ∉ g.nodos then
    some (none,
      [{ paso := 0
         accion := "Error: Uno o ambos nodos no existen en el grafo"
         nodo_actual := none
         camino_actual := []
         costo_total := 0
         visitados := ∅ }])
  else
    hcLoop g heur objetivo (g.nodos.card * 2) (g.nodos.card * 2) inicio [inicio] 0
      {inicio} 1
      [{ paso := 0
         accion := "Iniciar Hill Climbing desde: " ++ inicio
         nodo_actual := some inicio
         camino_actual := [inicio]
         costo_total := 0
         visitados := {inicio} }]

/-! ### Specification-side notions -/

/-- The node set derived from an edge list (the union of all endpoints,
in insertion order of the adds performed by `agregar_arista`). -/
def nodosDeAristas (l : List (Node × Node × ℚ)) : Finset Node :=
  l.foldl (fun s e => insert e.2.1 (insert e.1 s)) ∅

/-- The adjacency list derived from an edge list. -/
def adyDeAristas (l : List (Node × Node × ℚ)) (u : Node) : List (Node × ℚ) :=
  (l.filter (fun e => e.1 == u)).map (fun e => (e.2.1, e.2.2))

/-- Well-formedness of a `Grafo` value: the three stores are consistent,
as maintained by `__init__`, `agregar_arista`, `limpiar` and
`cargar_desde_json` (the class invariant of the source). -/
structure Grafo.WF (g : Grafo) : Prop where
  ady : ∀ u, g.adyacencias u = adyDeAristas g.aristas u
  nod : g.nodos = nodosDeAristas g.aristas

/-- `ReachIn g s v n`: there is a directed walk of exactly `n` edges from
`s` to `v` along the adjacency lists. -/
inductive ReachIn (g : Grafo) (s : Node) : Node → ℕ → Prop
  | refl : ReachIn g s s 0
  | step {u v : Node} {n : ℕ} : ReachIn g s u n → v ∈ g.obtener_vecinos u →
      ReachIn g s v (n + 1)

def Reachable (g : Grafo) (s v : Node) : Prop := ∃ n, ReachIn g s v n

/-- Minimum hop distance (only meaningful when `Reachable g s v`). -/
noncomputable def distG (g : Grafo) (s v : Node) : ℕ :=
  sInf { n | ReachIn g s v n }

/-- A list of nodes is a directed walk of the graph: consecutive elements
are connected by an adjacency-list entry. -/
def IsTrayecto (g : Grafo) (l : List Node) : Prop :=
  l.Chain' (fun a b => b ∈ g.obtener_vecinos a)

/-- A directed path from `inicio` to `final` (its hop count is
`l.length - 1`). -/
def EsCaminoDe (g : Grafo) (l : List Node) (inicio final : Node) : Prop :=
  IsTrayecto g l ∧ l.head? = some inicio ∧ l.getLast? = some final

/-- There is an edge from `a` to `b` recorded in the graph's edge list. -/
def AristaEn (g : Grafo) (a b : Node) : Prop := ∃ w, (a, b, w) ∈ g.aristas

instance instDecIsTrayecto (g : Grafo) : (l : List Node) → Decidable (IsTrayecto g l)
  | [] => isTrue List.chain'_nil
  | [a] => isTrue (List.chain'_singleton a)
  | a :: b :: t =>
    @decidable_of_decidable_of_iff
      (b ∈ g.obtener_vecinos a ∧ IsTrayecto g (b :: t))
      (IsTrayecto g (a :: b :: t))
      (@instDecidableAnd _ _ _ (instDecIsTrayecto g (b :: t)))
      (by simp only [IsTrayecto, List.chain'_cons])

instance (g : Grafo) (l : List Node) (i f : Node) : Decidable (EsCaminoDe g l i f) :=
  inferInstanceAs (Decidable (_ ∧ _ ∧ _))

/-- The parent-pointer chain relation: `CadenaPadre padre v l` says the
walk of `_reconstruir_camino` starting at `v` produces exactly `l`
(root first, `v` last). -/
inductive CadenaPadre (padre : Node → Option (Option Node)) : Node → List Node → Prop
  | root {v : Node} : padre v = some none → CadenaPadre padre v [v]
  | step {v u : Node} {l : List Node} : padre v = some (some u) →
      CadenaPadre padre u l → CadenaPadre padre v (l ++ [v])

/-! ### Concrete graphs used by counterexamples and witnesses -/

/-- The spec's Scenario A/B graph: edges A→B(1), B→C(1), A→C(5). -/
def gABC : Grafo :=
  (((Grafo.empty.agregar_arista "A" "B" (.num 1)).2.agregar_arista
      "B" "C" (.num 1)).2.agregar_arista "A" "C" (.num 5)).2

/-- A graph where the informed search dead-ends: A→B(1), B→A(1), C→A(1);
`C` is a known node but unreachable from `A`. -/
def gC3 : Grafo :=
  (((Grafo.empty.agregar_arista "A" "B" (.num 1)).2.agregar_arista
      "B" "A" (.num 1)).2.agregar_arista "C" "A" (.num 1)).2

/-- A graph whose stored labels are not normalization-fixed. -/
def gLow : Grafo := (Grafo.empty.agregar_arista "a" "B" (.num 1)).2

/-- Values of the fallback heuristic used in the concrete runs below. -/
lemma heur_B_C : calcular_heuristica_distancia_lineal "B" "C" = 1 / 100 := by
  have h1 : valorNodo "B" = 66 := rfl
  have h2 : valorNodo "C" = 67 := rfl
  rw [calcular_heuristica_distancia_lineal, h1, h2]; norm_num

lemma heur_C_C : calcular_heuristica_distancia_lineal "C" "C" = 0 := by
  have h2 : valorNodo "C" = 67 := rfl
  rw [calcular_heuristica_distancia_lineal, h2]; norm_num

/-- The trace of the informed search on the Scenario B graph. -/
def trazaABC : List RegistroHC :=
  [{ paso := 0, accion := "Iniciar Hill Climbing desde: A",
     nodo_actual := some "A", camino_actual := ["A"], costo_total := 0,
     visitados := {"A"} },
   { paso := 1, accion := "Evaluar vecinos de A", nodo_actual := some "A",
     camino_actual := ["A"], costo_total := 0, visitados := {"A"},
     evaluaciones := some [⟨"B", 1, 1 / 100, 101 / 100⟩, ⟨"C", 5, 0, 5⟩] },
   { paso := 2, accion := "Moverse a B", nodo_actual := some "B",
     camino_actual := ["A", "B"], costo_total := 1, visitados := {"B", "A"} },
   { paso := 3, accion := "Evaluar vecinos de B", nodo_actual := some "B",
     camino_actual := ["A", "B"], costo_total := 1, visitados := {"B", "A"},
     evaluaciones := some [⟨"C", 1, 0, 2⟩] },
   { paso := 4, accion := "Moverse a C - ¡OBJETIVO ALCANZADO!",
     nodo_actual := some "C", camino_actual := ["A", "B", "C"],
     costo_total := 2, visitados := {"C", "B", "A"},
     camino_final := some ["A", "B", "C"] }]

/-- The full run of the informed search on the Scenario B graph. -/
lemma hc_gABC_run :
    AlgoritmoHillClimbing.buscar_camino gABC calcular_heuristica_distancia_lineal
      "A" "C" =
    some (some ["A", "B", "C"], trazaABC) := by
  rw [trazaABC]
  norm_num +decide [AlgoritmoHillClimbing.buscar_camino, gABC, Grafo.empty,
    Grafo.agregar_arista, pyFloat, hcLoop, Grafo.obtener_vecinos_con_peso,
    evaluarVecinos, pasoEvaluacion, heur_B_C, heur_C_C]

/-- C2, counterexample: on the graph A→B(1), B→C(1), A→C(5) with no
position map, `InformedSearch.search(A, C)` does NOT select `C` directly:
the evaluation of `B` is `1 + 1/100 = 1.01 < 5`, so the search moves to
`B` and returns the path `[A, B, C]`, not `[A, C]`. -/
theorem counterexample_C2 :
    (AlgoritmoHillClimbing.buscar_camino gABC calcular_heuristica_distancia_lineal
        "A" "C").map Prod.fst = some (some ["A", "B", "C"]) ∧
    (["A", "B", "C"] : List Node) ≠ ["A", "C"] := by
  rw [hc_gABC_run]; exact ⟨rfl, by decide⟩

/-- C2 (amended): on the graph A→B(1), B→C(1), A→C(5) with no position map,
`InformedSearch.search(A, C)` evaluates both neighbors of `A`
(`B` with score `1.01` and `C` with score `5`), selects `B` (the smaller
score), then `C`, and returns the path `[A, B, C]` with accumulated
cost `2`. -/
theorem claim_C2 :
    (AlgoritmoHillClimbing.buscar_camino gABC calcular_heuristica_distancia_lineal
        "A" "C").map Prod.fst = some (some ["A", "B", "C"]) ∧
    (AlgoritmoHillClimbing.buscar_camino gABC calcular_heuristica_distancia_lineal
        "A" "C").map (fun r => (r.2.map RegistroHC.costo_total).getLast?) =
      some (some 2) ∧
    (AlgoritmoHillClimbing.buscar_camino gABC calcular_heuristica_distancia_lineal
        "A" "C").map (fun r => (r.2.map RegistroHC.evaluaciones)[1]?) =
      some (some (some [⟨"B", 1, 1 / 100, 101 / 100⟩, ⟨"C", 5, 0, 5⟩])) := by
  rw [hc_gABC_run]; exact ⟨rfl, rfl, rfl⟩

/-- C4: for every graph, whenever `start` or `goal` is not a known node,
both searches return an absent path together with a single-record trace
describing the error (a returned value, not an exception). -/
theorem claim_C4 (g : Grafo) (heur : Node → Node → ℚ) (inicio final : Node)
    (h : inicio ∉ g.nodos ∨ final ∉ g.nodos) :
    AlgoritmoBFS.buscar_camino g inicio final =
      some (none, [.error "Error: Uno o ambos nodos no existen en el grafo"]) ∧
    AlgoritmoHillClimbing.buscar_camino g heur inicio final =
      some (none,
        [{ paso := 0, accion := "Error: Uno o ambos nodos no existen en el grafo"
           nodo_actual := none, camino_actual := [], costo_total := 0
           visitados := ∅ }]) := by
  constructor
  · rw [AlgoritmoBFS.buscar_camino, if_pos h]
  · rw [AlgoritmoHillClimbing.buscar_camino, if_pos h]

theorem witness_C4 :
    ("A" ∉ gABC.nodos ∨ "Z" ∉ gABC.nodos) ∧
    (AlgoritmoBFS.buscar_camino gABC "A" "Z" =
        some (none, [.error "Error: Uno o ambos nodos no existen en el grafo"]) ∧
      AlgoritmoHillClimbing.buscar_camino gABC calcular_heuristica_distancia_lineal
          "A" "Z" =
        some (none,
          [{ paso := 0, accion := "Error: Uno o ambos nodos no existen en el grafo"
             nodo_actual := none, camino_actual := [], costo_total := 0
             visitados := ∅ }])) :=
  ⟨Or.inr (by decide),
    claim_C4 gABC calcular_heuristica_distancia_lineal "A" "Z" (Or.inr (by decide))⟩

/-- C6, counterexample: `agregar_arista` stores the endpoints exactly as
given — it does not trim or uppercase them (" a " stays " a ", while its
normalization is "A"). -/
theorem counterexample_C6 :
    (Grafo.empty.agregar_arista " a " "B" (.num 1)).2.aristas = [(" a ", "B", 1)] ∧
    normalizar " a " = "A" ∧ (" a " : String) ≠ "A" := by
  exact ⟨rfl, rfl, by decide⟩

/-- C6 (amended): `agregar_arista` parses the weight with `float`; on parse
failure it returns `False` and leaves the graph unchanged; on success it
appends the edge and adds both endpoints to the node set, storing the
endpoint strings exactly as given (normalization — trim + uppercase — is
performed by its callers: the GUI handler and the bulk loader). -/
theorem claim_C6 (g : Grafo) (origen destino : Node) (peso : PyVal) :
    (pyFloat peso = none → g.agregar_arista origen destino peso = (false, g)) ∧
    (∀ q, pyFloat peso = some q →
      (g.agregar_arista origen destino peso).1 = true ∧
      (g.agregar_arista origen destino peso).2.aristas =
        g.aristas ++ [(origen, destino, q)] ∧
      (g.agregar_arista origen destino peso).2.nodos =
        insert destino (insert origen g.nodos) ∧
      ∀ u, (g.agregar_arista origen destino peso).2.adyacencias u =
        if u = origen then g.adyacencias u ++ [(destino, q)] else g.adyacencias u) := by
  constructor
  · intro h; rw [Grafo.agregar_arista, h]
  · intro q h; rw [Grafo.agregar_arista, h]
    exact ⟨rfl, rfl, rfl, fun u => rfl⟩

theorem witness_C6 :
    pyFloat (.num 1) = some 1 ∧ pyFloat .bad = none ∧
    ((Grafo.empty.agregar_arista " a " "B" .bad = (false, Grafo.empty)) ∧
      ((Grafo.empty.agregar_arista " a " "B" (.num 1)).1 = true ∧
        (Grafo.empty.agregar_arista " a " "B" (.num 1)).2.aristas =
          Grafo.empty.aristas ++ [(" a ", "B", 1)] ∧
        (Grafo.empty.agregar_arista " a " "B" (.num 1)).2.nodos =
          insert "B" (insert " a " Grafo.empty.nodos) ∧
        ∀ u, (Grafo.empty.agregar_arista " a " "B" (.num 1)).2.adyacencias u =
          if u = " a " then Grafo.empty.adyacencias u ++ [("B", 1)]
          else Grafo.empty.adyacencias u)) :=
  ⟨rfl, rfl,
    (claim_C6 Grafo.empty " a " "B" .bad).1 rfl,
    (claim_C6 Grafo.empty " a " "B" (.num 1)).2 1 rfl⟩

/-! ### Graph well-formedness lemmas -/

lemma mem_fold_insert (l : List (Node × Node × ℚ)) :
    ∀ (s : Finset Node) (x : Node),
      (x ∈ l.foldl (fun s e => insert e.2.1 (insert e.1 s)) s) ↔
        x ∈ s ∨ ∃ e ∈ l, x = e.1 ∨ x = e.2.1 := by
  induction l with
  | nil => simp
  | cons e l ih =>
    intro s x
    simp only [List.foldl_cons, ih, Finset.mem_insert, List.mem_cons]
    aesop

lemma mem_nodosDeAristas (l : List (Node × Node × ℚ)) (x : Node) :
    x ∈ nodosDeAristas l ↔ ∃ e ∈ l, x = e.1 ∨ x = e.2.1 := by
  rw [nodosDeAristas, mem_fold_insert]; simp

lemma nodosDeAristas_append_single (l : List (Node × Node × ℚ)) (e : Node × Node × ℚ) :
    nodosDeAristas (l ++ [e]) = insert e.2.1 (insert e.1 (nodosDeAristas l)) := by
  simp [nodosDeAristas, List.foldl_append]

lemma adyDeAristas_append_single (l : List (Node × Node × ℚ)) (e : Node × Node × ℚ)
    (u : Node) :
    adyDeAristas (l ++ [e]) u =
      adyDeAristas l u ++ (if e.1 = u then [(e.2.1, e.2.2)] else []) := by
  by_cases h : e.1 = u
  · simp [adyDeAristas, List.filter_append, List.filter_cons, h]
  · simp [adyDeAristas, List.filter_append, List.filter_cons, h]

lemma wf_empty : Grafo.empty.WF :=
  ⟨fun _ => rfl, rfl⟩

lemma Grafo.WF.agregar {g : Grafo} (h : g.WF) (o d : Node) (pv : PyVal) :
    ((g.agregar_arista o d pv).2).WF := by
  rcases hpv : pyFloat pv with _ | q
  · rw [Grafo.agregar_arista, hpv]; exact h
  · rw [Grafo.agregar_arista, hpv]
    constructor
    · intro u
      simp only []
      rw [adyDeAristas_append_single, ← h.ady u]
      by_cases hu : u = o
      · subst hu; simp
      · have : ¬o = u := fun hh => hu hh.symm
        simp [hu, this]
    · simp only []
      rw [nodosDeAristas_append_single, ← h.nod]

lemma wf_gABC : gABC.WF :=
  ((wf_empty.agregar "A" "B" (.num 1)).agregar "B" "C" (.num 1)).agregar "A" "C" (.num 5)

lemma wf_gC3 : gC3.WF :=
  ((wf_empty.agregar "A" "B" (.num 1)).agregar "B" "A" (.num 1)).agregar "C" "A" (.num 1)

/-- Under well-formedness, an adjacency entry's endpoints are known nodes. -/
lemma Grafo.WF.mem_nodos_of_ady {g : Grafo} (h : g.WF) {u : Node} {vp : Node × ℚ}
    (hm : vp ∈ g.adyacencias u) : u ∈ g.nodos ∧ vp.1 ∈ g.nodos := by
  rw [h.ady u] at hm
  simp only [adyDeAristas, List.mem_map, List.mem_filter] at hm
  obtain ⟨e, ⟨he, heq⟩, hv⟩ := hm
  rw [h.nod]
  rw [beq_iff_eq] at heq
  constructor
  · rw [mem_nodosDeAristas]; exact ⟨e, he, Or.inl heq.symm⟩
  · rw [mem_nodosDeAristas]; exact ⟨e, he, Or.inr (by rw [← hv])⟩

/-- Under well-formedness, adjacency entries are exactly recorded edges. -/
lemma Grafo.WF.aristaEn_of_ady {g : Grafo} (h : g.WF) {u : Node} {vp : Node × ℚ}
    (hm : vp ∈ g.adyacencias u) : AristaEn g u vp.1 := by
  rw [h.ady u] at hm
  simp only [adyDeAristas, List.mem_map, List.mem_filter] at hm
  obtain ⟨e, ⟨he, heq⟩, hv⟩ := hm
  rw [beq_iff_eq] at heq
  refine ⟨e.2.2, ?_⟩
  have : e = (u, vp.1, e.2.2) := by
    obtain ⟨a, b, c⟩ := e
    simp only [] at heq hv ⊢
    subst heq; subst hv; rfl
  rw [← this]; exact he

/-! ### Bulk load: characterization (C5) and round trip (C7) -/

/-- The well-formed records of a load input, in order (what gets added). -/
def aristasValidas (rs : List RegistroArista) : List (Node × Node × ℚ) :=
  rs.filterMap parseRegistro

/-- The per-item error message carrying a 1-based index. -/
def mensajeInvalido (n : ℕ) : String :=
  "Arista " ++ toString n ++ ": Formato inválido"

/-- The error list of a load: one message per malformed record, carrying
the record's 1-based position. -/
def erroresDeCarga (rs : List RegistroArista) : List String :=
  rs.enum.filterMap fun p =>
    if (parseRegistro p.2).isNone then some (mensajeInvalido (p.1 + 1)) else none

/-- Folding `agregar_arista` over already-parsed edges. -/
def foldAgregar (l : List (Node × Node × ℚ)) (g : Grafo) : Grafo :=
  l.foldl (fun h e => (h.agregar_arista e.1 e.2.1 (.num e.2.2)).2) g

lemma foldAgregar_aristas (l : List (Node × Node × ℚ)) :
    ∀ g : Grafo, (foldAgregar l g).aristas = g.aristas ++ l := by
  induction l with
  | nil => intro g; simp [foldAgregar]
  | cons e l ih =>
    intro g
    rw [foldAgregar, List.foldl_cons, ← foldAgregar, ih]
    simp [Grafo.agregar_arista, pyFloat]

lemma foldAgregar_nodos (l : List (Node × Node × ℚ)) :
    ∀ g : Grafo,
      (foldAgregar l g).nodos = l.foldl (fun s e => insert e.2.1 (insert e.1 s)) g.nodos := by
  induction l with
  | nil => intro g; simp [foldAgregar]
  | cons e l ih =>
    intro g
    rw [foldAgregar, List.foldl_cons, ← foldAgregar, ih, List.foldl_cons]
    simp [Grafo.agregar_arista, pyFloat]

lemma cargarAux_spec (rs : List RegistroArista) :
    ∀ (i : ℕ) (g : Grafo) (cnt : ℕ) (errs : List String),
      cargarAux rs i g cnt errs =
        (foldAgregar (aristasValidas rs) g,
          cnt + (aristasValidas rs).length,
          errs ++ ((List.enumFrom i rs).filterMap fun p =>
            if (parseRegistro p.2).isNone then some (mensajeInvalido (p.1 + 1)) else none)) := by
  induction rs with
  | nil => intro i g cnt errs; simp [cargarAux, aristasValidas, foldAgregar, List.enumFrom]
  | cons r rs ih =>
    intro i g cnt errs
    rw [cargarAux]
    rcases hp : parseRegistro r with _ | ⟨o, d, q⟩
    · rw [ih]
      simp only [aristasValidas, List.filterMap_cons, hp, List.enumFrom,
        List.filterMap_cons, Option.isNone_none, if_pos, mensajeInvalido]
      simp [List.append_assoc]
    · simp only [Grafo.agregar_arista, pyFloat]
      rw [ih]
      simp only [aristasValidas, List.filterMap_cons, hp, List.enumFrom,
        List.filterMap_cons, Option.isNone_some, if_neg, Bool.false_eq_true,
        not_false_eq_true, List.length_cons, foldAgregar, List.foldl_cons]
      simp only [Prod.mk.injEq]
      exact ⟨rfl, by omega, trivial⟩

/-- The four-record load input of Scenario D: three valid edges and one
malformed record (missing `destino`) at 1-based position 2. -/
def rsC5 : List RegistroArista :=
  [⟨some "a", some "b", some (.num 1)⟩, ⟨some "b", none, some (.num 2)⟩,
   ⟨some "b", some "c", some (.numStr 2)⟩, ⟨some "c", some "d", some (.num 3)⟩]

/-- C5: bulk load.  (1) A load input without the `aristas` key is rejected
whole, as a hard failure.  (2) Otherwise every record is validated
independently: the well-formed edges are all added (in order), the count
of loaded edges is the number of well-formed records, and each malformed
record contributes one error carrying its 1-based index.  (3) In
particular, one malformed edge among three valid ones yields 3 loaded
edges and 1 error at position 2. -/
theorem claim_C5 (g0 : Grafo) (datos : DatosJson) :
    (datos.aristas = none →
      g0.cargar_desde_json datos =
        .error "Error al procesar el archivo: El archivo JSON debe contener una clave 'aristas'") ∧
    (∀ rs, datos.aristas = some rs →
      ∃ g, g0.cargar_desde_json datos =
          .ok (g, (aristasValidas rs).length, erroresDeCarga rs) ∧
        g.aristas = aristasValidas rs) ∧
    (∃ g, Grafo.empty.cargar_desde_json ⟨some rsC5, none⟩ =
        .ok (g, 3, ["Arista 2: Formato inválido"]) ∧
      g.aristas = [("A", "B", 1), ("B", "C", 2), ("C", "D", 3)]) := by
  refine ⟨?_, ?_, ?_⟩
  · intro h; rw [Grafo.cargar_desde_json, h]
  · intro rs h
    rw [Grafo.cargar_desde_json, h]
    refine ⟨foldAgregar (aristasValidas rs) Grafo.empty, ?_, ?_⟩
    · show Except.ok (cargarAux rs 0 Grafo.empty 0 []) = _
      rw [cargarAux_spec]
      have : erroresDeCarga rs = (List.enumFrom 0 rs).filterMap fun p =>
          if (parseRegistro p.2).isNone then some (mensajeInvalido (p.1 + 1)) else none := rfl
      rw [this]
      simp
    · rw [foldAgregar_aristas]; rfl
  · exact ⟨_, rfl, rfl⟩

theorem witness_C5 :
    (DatosJson.mk none none).aristas = none ∧
    (DatosJson.mk (some rsC5) none).aristas = some rsC5 ∧
    Grafo.empty.cargar_desde_json ⟨none, none⟩ =
      .error "Error al procesar el archivo: El archivo JSON debe contener una clave 'aristas'" ∧
    (∃ g, Grafo.empty.cargar_desde_json ⟨some rsC5, none⟩ =
        .ok (g, (aristasValidas rsC5).length, erroresDeCarga rsC5) ∧
      g.aristas = aristasValidas rsC5) :=
  ⟨rfl, rfl, (claim_C5 Grafo.empty ⟨none, none⟩).1 rfl,
    (claim_C5 Grafo.empty ⟨some rsC5, none⟩).2.1 rsC5 rfl⟩

/-- C7, counterexample: a graph holding a non-normalized label does not
round-trip: exporting `gLow` (edge `a→B`) and re-loading yields the edge
`A→B`, a different edge list. -/
theorem counterexample_C7 :
    ∃ g n e, Grafo.empty.cargar_desde_json gLow.exportar_a_json = .ok (g, n, e) ∧
      gLow.aristas = [("a", "B", 1)] ∧ g.aristas = [("A", "B", 1)] ∧
      g.aristas ≠ gLow.aristas := by
  refine ⟨_, _, _, rfl, rfl, rfl, by decide⟩

lemma parse_of_normalizado {e : Node × Node × ℚ}
    (h1 : normalizar e.1 = e.1) (h2 : normalizar e.2.1 = e.2.1) :
    parseRegistro ⟨some e.1, some e.2.1, some (.num e.2.2)⟩ = some e := by
  rw [parseRegistro]
  simp [pyFloat, h1, h2]

/-- C7 (amended): for every well-formed graph all of whose node labels are
fixed by normalization (trimmed and upper-case — which holds for every
graph built through the GUI or the bulk loader), exporting and re-loading
yields a graph with the same edge list, in the same order, and the same
node set, with no load errors. -/
theorem claim_C7 (g g0 : Grafo) (hwf : g.WF)
    (hnorm : ∀ v ∈ g.nodos, normalizar v = v) :
    ∃ g2, g0.cargar_desde_json g.exportar_a_json =
        .ok (g2, g.aristas.length, []) ∧
      g2.aristas = g.aristas ∧ g2.nodos = g.nodos := by
  have hmem : ∀ e ∈ g.aristas, normalizar e.1 = e.1 ∧ normalizar e.2.1 = e.2.1 := by
    intro e he
    constructor
    · exact hnorm e.1 (by rw [hwf.nod, mem_nodosDeAristas]; exact ⟨e, he, Or.inl rfl⟩)
    · exact hnorm e.2.1 (by rw [hwf.nod, mem_nodosDeAristas]; exact ⟨e, he, Or.inr rfl⟩)
  have hparse : ∀ e ∈ g.aristas,
      parseRegistro ⟨some e.1, some e.2.1, some (.num e.2.2)⟩ = some e :=
    fun e he => parse_of_normalizado (hmem e he).1 (hmem e he).2
  have hvalid : aristasValidas (g.aristas.map
      (fun e => (⟨some e.1, some e.2.1, some (.num e.2.2)⟩ : RegistroArista))) = g.aristas := by
    rw [aristasValidas, List.filterMap_map]
    have : ∀ l : List (Node × Node × ℚ),
        (∀ e ∈ l, parseRegistro ⟨some e.1, some e.2.1, some (.num e.2.2)⟩ = some e) →
        l.filterMap (fun e =>
          parseRegistro ⟨some e.1, some e.2.1, some (.num e.2.2)⟩) = l := by
      intro l
      induction l with
      | nil => intro _; rfl
      | cons e l ih =>
        intro hl
        rw [List.filterMap_cons, hl e (by simp),
          ih (fun x hx => hl x (by simp [hx]))]
    exact this g.aristas hparse
  have herr : ∀ (rs : List RegistroArista), (∀ r ∈ rs, (parseRegistro r).isSome) → ∀ i,
      ((List.enumFrom i rs).filterMap fun p =>
        if (parseRegistro p.2).isNone then some (mensajeInvalido (p.1 + 1)) else none) = [] := by
    intro rs
    induction rs with
    | nil => intro _ i; rfl
    | cons r rs ih =>
      intro hl i
      have hr : (parseRegistro r).isSome := hl r (by simp)
      have hnone : (parseRegistro r).isNone = false := by
        rcases hp : parseRegistro r with _ | v
        · rw [hp] at hr; simp at hr
        · rfl
      rw [List.enumFrom, List.filterMap_cons]
      simp only [hnone, Bool.false_eq_true, if_false]
      exact ih (fun x hx => hl x (by simp [hx])) (i + 1)
  refine ⟨foldAgregar g.aristas Grafo.empty, ?_, ?_, ?_⟩
  · rw [Grafo.exportar_a_json, Grafo.cargar_desde_json]
    simp only []
    rw [cargarAux_spec, hvalid]
    rw [herr _ (by
      intro r hr
      simp only [List.mem_map] at hr
      obtain ⟨e, he, rfl⟩ := hr
      rw [hparse e he]; rfl)]
    simp
  · rw [foldAgregar_aristas]; rfl
  · rw [foldAgregar_nodos, hwf.nod]; rfl

theorem witness_C7 :
    gABC.WF ∧ (∀ v ∈ gABC.nodos, normalizar v = v) ∧
    (∃ g2, Grafo.empty.cargar_desde_json gABC.exportar_a_json =
        .ok (g2, gABC.aristas.length, []) ∧
      g2.aristas = gABC.aristas ∧ g2.nodos = gABC.nodos) :=
  ⟨wf_gABC, by decide, claim_C7 gABC Grafo.empty wf_gABC (by decide)⟩

/-! ### Hill-climbing loop invariants -/

/-- The failure/branch messages of the hill-climbing search. -/
def msgMaxIter : String := "Máximo de iteraciones alcanzado - Búsqueda fallida"

def msgSinVecinos (nd : Node) : String :=
  "Sin vecinos desde " ++ nd ++ " - Búsqueda fallida"

def msgTodosVisitados : String := "Todos los vecinos visitados - Búsqueda fallida"

lemma msgSinVecinos_ne (nd : Node) : msgSinVecinos nd ≠ msgMaxIter := by
  intro h
  have h2 := congrArg String.data h
  simp [msgSinVecinos, msgMaxIter, String.data_append] at h2

lemma msgTodosVisitados_ne : msgTodosVisitados ≠ msgMaxIter := by decide

lemma msgEvaluar_ne (nd : Node) : ("Evaluar vecinos de " ++ nd) ≠ msgMaxIter := by
  intro h
  have h2 := congrArg String.data h
  simp [msgMaxIter, String.data_append] at h2

lemma msgMoverse_ne (s t : String) : ("Moverse a " ++ s ++ t) ≠ msgMaxIter := by
  intro h
  have h2 := congrArg String.data h
  simp [msgMaxIter, String.data_append] at h2

lemma msgIniciar_ne (s : String) : ("Iniciar Hill Climbing desde: " ++ s) ≠ msgMaxIter := by
  intro h
  have h2 := congrArg String.data h
  simp [msgMaxIter, String.data_append] at h2

/-- Whatever the neighbor-evaluation loop selects is an unvisited entry of
the neighbor list. -/
lemma evaluarVecinos_best (heur : Node → Node → ℚ) (objetivo : Node) (costo : ℚ)
    (vis : Finset Node) (vecinos : List (Node × ℚ)) :
    ∀ x, (evaluarVecinos heur objetivo costo vis vecinos).2 = some x →
      (x.1, x.2.1) ∈ vecinos ∧ x.1 ∉ vis := by
  suffices h : ∀ (vs : List (Node × ℚ)) (st : List EvalHC × Option (Node × ℚ × ℚ)),
      (∀ x, st.2 = some x → (x.1, x.2.1) ∈ vecinos ∧ x.1 ∉ vis) →
      (∀ vp ∈ vs, vp ∈ vecinos) →
      ∀ x, (vs.foldl (pasoEvaluacion heur objetivo costo vis) st).2 = some x →
        (x.1, x.2.1) ∈ vecinos ∧ x.1 ∉ vis by
    exact h vecinos ([], none) (by intro x hx; simp at hx) (fun vp hv => hv)
  intro vs
  induction vs with
  | nil => intro st hst _ x hx; exact hst x hx
  | cons vp vs ih =>
    intro st hst hsub x hx
    rw [List.foldl_cons] at hx
    refine ih _ ?_ (fun w hw => hsub w (by simp [hw])) x hx
    intro y hy
    rw [pasoEvaluacion] at hy
    by_cases hv : vp.1 ∈ vis
    · rw [if_pos hv] at hy; exact hst y hy
    · rw [if_neg hv] at hy
      simp only [] at hy
      rcases hst2 : st.2 with _ | b
      · rw [hst2] at hy
        have hy2 : some (vp.1, vp.2, costo + vp.2 + heur vp.1 objetivo) = some y := hy
        simp only [Option.some.injEq] at hy2
        subst hy2
        exact ⟨hsub vp (by simp), hv⟩
      · rw [hst2] at hy
        obtain ⟨bv, bp, be⟩ := b
        have hy2 : (if costo + vp.2 + heur vp.1 objetivo < be then
            some (vp.1, vp.2, costo + vp.2 + heur vp.1 objetivo)
          else some (bv, bp, be)) = some y := hy
        by_cases hlt : costo + vp.2 + heur vp.1 objetivo < be
        · rw [if_pos hlt] at hy2
          simp only [Option.some.injEq] at hy2
          subst hy2
          exact ⟨hsub vp (by simp), hv⟩
        · rw [if_neg hlt] at hy2
          exact hst y (by rw [hst2, hy2])

/-- The returned path of the hill-climbing loop extends the accumulated
path: it keeps its head, is duplicate-free, follows adjacency, and ends at
the goal. -/
lemma hcLoop_path (g : Grafo) (heur : Node → Node → ℚ) (objetivo : Node)
    (maxIter : ℕ) :
    ∀ (fuel : ℕ) (nodo : Node) (camino : List Node) (costo : ℚ)
      (vis : Finset Node) (paso : ℕ) (pasos : List RegistroHC),
      camino.Nodup → (∀ x ∈ camino, x ∈ vis) → camino.getLast? = some nodo →
      IsTrayecto g camino →
      ∀ l tr,
        hcLoop g heur objetivo maxIter fuel nodo camino costo vis paso pasos =
          some (some l, tr) →
        l.Nodup ∧ IsTrayecto g l ∧ l.head? = camino.head? ∧
          l.getLast? = some objetivo := by
  intro fuel
  induction fuel with
  | zero =>
    intro nodo camino costo vis paso pasos hnd hsub hlast htr l tr h
    rw [hcLoop] at h
    by_cases hcond : nodo ≠ objetivo ∧ paso < maxIter
    · rw [if_pos hcond] at h; exact absurd h (by simp)
    · rw [if_neg hcond] at h
      by_cases hobj : nodo = objetivo
      · rw [if_pos hobj] at h
        simp only [Option.some.injEq, Prod.mk.injEq] at h
        obtain ⟨h1, _⟩ := h
        subst h1
        exact ⟨hnd, htr, rfl, by rw [hlast, hobj]⟩
      · rw [if_neg hobj] at h; exact absurd h (by simp)
  | succ fuel ih =>
    intro nodo camino costo vis paso pasos hnd hsub hlast htr l tr h
    rw [hcLoop] at h
    by_cases hcond : nodo ≠ objetivo ∧ paso < maxIter
    · rw [if_pos hcond] at h
      rcases hvec : g.obtener_vecinos_con_peso nodo with _ | ⟨v, vs⟩
      · simp only [hvec] at h
        exact absurd h (by simp)
      · simp only [hvec] at h
        rcases heval : evaluarVecinos heur objetivo costo vis (v :: vs)
          with ⟨evs, best⟩
        simp only [heval] at h
        rcases hbest : best with _ | ⟨mv, mp, me⟩
        · subst hbest
          simp only [] at h
          exact absurd h (by simp)
        · subst hbest
          simp only [] at h
          have hspec := evaluarVecinos_best heur objetivo costo vis (v :: vs)
            (mv, mp, me) (by rw [heval])
          have hmv_mem : mv ∈ g.obtener_vecinos nodo := by
            rw [Grafo.obtener_vecinos, ← Grafo.obtener_vecinos_con_peso, hvec]
            exact List.mem_map_of_mem Prod.fst hspec.1
          have hmv_vis : mv ∉ vis := hspec.2
          have hcne : camino ≠ [] := by
            intro hc; rw [hc] at hlast; simp at hlast
          have h2 := ih mv (camino ++ [mv]) (costo + mp) (insert mv vis) (paso + 2)
            _ ?_ ?_ ?_ ?_ l tr h
          · refine ⟨h2.1, h2.2.1, ?_, h2.2.2.2⟩
            rw [h2.2.2.1]
            rcases camino with _ | ⟨a, t⟩
            · exact absurd rfl hcne
            · simp
          · simp only [List.nodup_append, List.nodup_cons, List.nodup_nil]
            refine ⟨hnd, by simp, ?_⟩
            intro x hx
            simp only [List.mem_singleton]
            intro hxmv
            exact hmv_vis (hxmv ▸ hsub x hx)
          · intro x hx
            rcases List.mem_append.mp hx with hx | hx
            · exact Finset.mem_insert_of_mem (hsub x hx)
            · simp only [List.mem_singleton] at hx
              rw [hx]; exact Finset.mem_insert_self mv vis
          · simp
          · rw [IsTrayecto, List.chain'_append]
            refine ⟨htr, by simp [IsTrayecto], ?_⟩
            intro x hx y hy
            simp only [List.head?_cons, Option.mem_def, Option.some.injEq] at hy
            rw [hlast] at hx
            simp only [Option.mem_def, Option.some.injEq] at hx
            rw [← hx, ← hy]
            exact hmv_mem
    · rw [if_neg hcond] at h
      by_cases hobj : nodo = objetivo
      · rw [if_pos hobj] at h
        simp only [Option.some.injEq, Prod.mk.injEq] at h
        obtain ⟨h1, _⟩ := h
        subst h1
        exact ⟨hnd, htr, rfl, by rw [hlast, hobj]⟩
      · rw [if_neg hobj] at h; exact absurd h (by simp)

/-- Totality and failure-cause analysis of the hill-climbing loop: under
the loop invariant `paso + 1 = 2 * |visitados|` (each iteration adds two
steps and visits a fresh node), the step counter never reaches the
`2 * |nodos|` cap, so the loop always returns, no record ever carries the
iteration-limit message, and a goal-less outcome ends with a "no
neighbors" or "all neighbors visited" record. -/
lemma hcLoop_total (g : Grafo) (heur : Node → Node → ℚ) (objetivo : Node)
    (hady : ∀ (u : Node) (vp : Node × ℚ), vp ∈ g.adyacencias u → vp.1 ∈ g.nodos) :
    ∀ (fuel : ℕ) (nodo : Node) (camino : List Node) (costo : ℚ)
      (vis : Finset Node) (paso : ℕ) (pasos : List RegistroHC),
      nodo ∈ vis → vis ⊆ g.nodos → paso + 1 = 2 * vis.card →
      g.nodos.card * 2 ≤ paso + fuel →
      (∀ r ∈ pasos, r.accion ≠ msgMaxIter) →
      ∃ res,
        hcLoop g heur objetivo (g.nodos.card * 2) fuel nodo camino costo vis paso
            pasos = some res ∧
        (∀ r ∈ res.2, r.accion ≠ msgMaxIter) ∧
        (res.1 = none → ∃ r, res.2.getLast? = some r ∧
          ((∃ nd, r.accion = msgSinVecinos nd) ∨ r.accion = msgTodosVisitados)) := by
  intro fuel
  induction fuel with
  | zero =>
    intro nodo camino costo vis paso pasos hmem hsub hpaso hfuel hpasos
    have hcard : vis.card ≤ g.nodos.card := Finset.card_le_card hsub
    rw [hcLoop]
    have hcond : ¬(nodo ≠ objetivo ∧ paso < g.nodos.card * 2) := by
      rintro ⟨_, hlt⟩; omega
    rw [if_neg hcond]
    by_cases hobj : nodo = objetivo
    · rw [if_pos hobj]
      exact ⟨(some camino, pasos), rfl, hpasos, by simp⟩
    · exfalso; exact hcond ⟨hobj, by omega⟩
  | succ fuel ih =>
    intro nodo camino costo vis paso pasos hmem hsub hpaso hfuel hpasos
    have hcard : vis.card ≤ g.nodos.card := Finset.card_le_card hsub
    rw [hcLoop]
    by_cases hcond : nodo ≠ objetivo ∧ paso < g.nodos.card * 2
    · rw [if_pos hcond]
      rcases hvec : g.obtener_vecinos_con_peso nodo with _ | ⟨v, vs⟩
      · simp only [hvec]
        refine ⟨_, rfl, ?_, ?_⟩
        · intro r hr
          rcases List.mem_append.mp hr with hr | hr
          · exact hpasos r hr
          · simp only [List.mem_singleton] at hr
            rw [hr]
            exact msgSinVecinos_ne nodo
        · intro _
          refine ⟨{ paso := paso,
                    accion := "Sin vecinos desde " ++ nodo ++ " - Búsqueda fallida",
                    nodo_actual := some nodo, camino_actual := camino,
                    costo_total := costo, visitados := vis }, by simp,
            Or.inl ⟨nodo, rfl⟩⟩
      · simp only [hvec]
        rcases heval : evaluarVecinos heur objetivo costo vis (v :: vs)
          with ⟨evs, best⟩
        simp only [heval]
        rcases hbest : best with _ | ⟨mv, mp, me⟩
        · subst hbest
          simp only []
          refine ⟨_, rfl, ?_, ?_⟩
          · intro r hr
            rcases List.mem_append.mp hr with hr | hr
            · rcases List.mem_append.mp hr with hr | hr
              · exact hpasos r hr
              · simp only [List.mem_singleton] at hr
                rw [hr]
                exact msgEvaluar_ne nodo
            · simp only [List.mem_singleton] at hr
              rw [hr]
              exact msgTodosVisitados_ne
          · intro _
            refine ⟨{ paso := paso + 1,
                      accion := "Todos los vecinos visitados - Búsqueda fallida",
                      nodo_actual := some nodo, camino_actual := camino,
                      costo_total := costo, visitados := vis }, by simp,
              Or.inr rfl⟩
        · subst hbest
          simp only []
          have hspec := evaluarVecinos_best heur objetivo costo vis (v :: vs)
            (mv, mp, me) (by rw [heval])
          have hmv_nodos : mv ∈ g.nodos := by
            refine hady nodo (mv, mp) ?_
            rw [← Grafo.obtener_vecinos_con_peso, hvec]
            exact hspec.1
          have hmv_vis : mv ∉ vis := hspec.2
          refine ih mv (camino ++ [mv]) (costo + mp) (insert mv vis) (paso + 2) _
            (Finset.mem_insert_self mv vis)
            (Finset.insert_subset hmv_nodos hsub)
            (by rw [Finset.card_insert_of_not_mem hmv_vis]; omega)
            (by omega)
            ?_
          intro r hr
          rcases List.mem_append.mp hr with hr | hr
          · rcases List.mem_append.mp hr with hr | hr
            · exact hpasos r hr
            · simp only [List.mem_singleton] at hr
              rw [hr]
              exact msgEvaluar_ne nodo
          · simp only [List.mem_singleton] at hr
            rw [hr]
            exact msgMoverse_ne mv _
    · rw [if_neg hcond]
      by_cases hobj : nodo = objetivo
      · rw [if_pos hobj]
        exact ⟨(some camino, pasos), rfl, hpasos, by simp⟩
      · exfalso; exact hcond ⟨hobj, by omega⟩

/-- C3 (amended): for every graph and known `(start, goal)` and any
heuristic, the informed search terminates (the embedding never runs out of
fuel: each loop iteration adds 2 to the step counter and visits a fresh
node, so the counter stays at `2|visited| - 1 ≤ 2|nodes| - 1`, strictly
below the `2 × |nodes|` cap); consequently the iteration-limit record is
never produced, and a search that does not reach the goal ends with a
"no neighbors" or "all neighbors visited" record instead. -/
theorem claim_C3 (g : Grafo) (heur : Node → Node → ℚ) (inicio objetivo : Node)
    (hwf : g.WF) (hi : inicio ∈ g.nodos) (ho : objetivo ∈ g.nodos) :
    ∃ res, AlgoritmoHillClimbing.buscar_camino g heur inicio objetivo = some res ∧
      (∀ r ∈ res.2, r.accion ≠ msgMaxIter) ∧
      (res.1 = none → ∃ r, res.2.getLast? = some r ∧
        ((∃ nd, r.accion = msgSinVecinos nd) ∨ r.accion = msgTodosVisitados)) := by
  have hpre : ¬(inicio ∉ g.nodos ∨ objetivo ∉ g.nodos) := by simp [hi, ho]
  rw [AlgoritmoHillClimbing.buscar_camino, if_neg hpre]
  refine hcLoop_total g heur objetivo
    (fun u vp hm => (hwf.mem_nodos_of_ady hm).2)
    (g.nodos.card * 2) inicio [inicio] 0 {inicio} 1 _
    (Finset.mem_singleton_self inicio) (Finset.singleton_subset_iff.mpr hi)
    (by simp) (by omega) ?_
  intro r hr
  simp only [List.mem_singleton] at hr
  rw [hr]
  exact msgIniciar_ne inicio

theorem witness_C3 :
    gABC.WF ∧ "A" ∈ gABC.nodos ∧ "C" ∈ gABC.nodos ∧
    (∃ res, AlgoritmoHillClimbing.buscar_camino gABC
          calcular_heuristica_distancia_lineal "A" "C" = some res ∧
      (∀ r ∈ res.2, r.accion ≠ msgMaxIter) ∧
      (res.1 = none → ∃ r, res.2.getLast? = some r ∧
        ((∃ nd, r.accion = msgSinVecinos nd) ∨ r.accion = msgTodosVisitados))) :=
  ⟨wf_gABC, by decide, by decide,
    claim_C3 gABC calcular_heuristica_distancia_lineal "A" "C" wf_gABC
      (by decide) (by decide)⟩

/-- The trace of the informed search on the dead-end graph `gC3`. -/
def trazaC3 : List RegistroHC :=
  [{ paso := 0, accion := "Iniciar Hill Climbing desde: A",
     nodo_actual := some "A", camino_actual := ["A"], costo_total := 0,
     visitados := {"A"} },
   { paso := 1, accion := "Evaluar vecinos de A", nodo_actual := some "A",
     camino_actual := ["A"], costo_total := 0, visitados := {"A"},
     evaluaciones := some [⟨"B", 1, 1 / 100, 101 / 100⟩] },
   { paso := 2, accion := "Moverse a B", nodo_actual := some "B",
     camino_actual := ["A", "B"], costo_total := 1, visitados := {"B", "A"} },
   { paso := 3, accion := "Evaluar vecinos de B", nodo_actual := some "B",
     camino_actual := ["A", "B"], costo_total := 1, visitados := {"B", "A"},
     evaluaciones := some [] },
   { paso := 4, accion := "Todos los vecinos visitados - Búsqueda fallida",
     nodo_actual := some "B", camino_actual := ["A", "B"], costo_total := 1,
     visitados := {"B", "A"} }]

/-- The full run of the informed search on `gC3` (start `A`, goal `C`). -/
lemma hc_gC3_run :
    AlgoritmoHillClimbing.buscar_camino gC3 calcular_heuristica_distancia_lineal
      "A" "C" = some (none, trazaC3) := by
  rw [trazaC3]
  norm_num +decide [AlgoritmoHillClimbing.buscar_camino, gC3, Grafo.empty,
    Grafo.agregar_arista, pyFloat, hcLoop, Grafo.obtener_vecinos_con_peso,
    evaluarVecinos, pasoEvaluacion, heur_B_C]

/-- C3, counterexample: a concrete search (`gC3`, A→C) that does not reach
the goal stops without the iteration cap ever being involved: its final
record reports "all neighbors visited", and no record of the trace reports
the iteration limit. -/
theorem counterexample_C3 :
    AlgoritmoHillClimbing.buscar_camino gC3 calcular_heuristica_distancia_lineal
        "A" "C" = some (none, trazaC3) ∧
    (trazaC3.map RegistroHC.accion).getLast? = some msgTodosVisitados ∧
    msgMaxIter ∉ trazaC3.map RegistroHC.accion := by
  refine ⟨hc_gC3_run, by decide, by decide⟩

/-- C8: whenever the informed search returns a path, that path has no
repeated node (visited nodes are excluded from the candidates and each
chosen node is marked visited). -/
theorem claim_C8 (g : Grafo) (heur : Node → Node → ℚ) (inicio objetivo : Node)
    (l : List Node) (tr : List RegistroHC)
    (h : AlgoritmoHillClimbing.buscar_camino g heur inicio objetivo =
      some (some l, tr)) :
    l.Nodup := by
  by_cases hpre : inicio ∉ g.nodos ∨ objetivo ∉ g.nodos
  · rw [AlgoritmoHillClimbing.buscar_camino, if_pos hpre] at h
    exact absurd h (by simp)
  · rw [AlgoritmoHillClimbing.buscar_camino, if_neg hpre] at h
    exact (hcLoop_path g heur objetivo (g.nodos.card * 2) (g.nodos.card * 2)
      inicio [inicio] 0 {inicio} 1 _
      (by simp) (by simp) (by simp) (by simp [IsTrayecto]) l tr h).1

theorem witness_C8 :
    AlgoritmoHillClimbing.buscar_camino gABC calcular_heuristica_distancia_lineal
        "A" "C" = some (some ["A", "B", "C"], trazaABC) ∧
    (["A", "B", "C"] : List Node).Nodup :=
  ⟨hc_gABC_run,
    claim_C8 gABC calcular_heuristica_distancia_lineal "A" "C" _ _ hc_gABC_run⟩

/-- Unfolding lemma: the hill-climbing loop returns immediately when the
current node is the goal. -/
lemma hcLoop_self (g : Grafo) (heur : Node → Node → ℚ) (objetivo : Node)
    (maxIter fuel : ℕ) (camino : List Node) (costo : ℚ) (vis : Finset Node)
    (paso : ℕ) (pasos : List RegistroHC) :
    hcLoop g heur objetivo maxIter fuel objetivo camino costo vis paso pasos =
      some (some camino, pasos) := by
  rw [hcLoop.eq_def]
  simp

/-- Unfolding lemma: dequeueing the goal ends the BFS loop with the
reconstructed path. -/
lemma bfsLoop_goal_head (g : Grafo) (final : Node) (fuel : ℕ) (resto : List Node)
    (vis : Finset Node) (padre : Node → Option (Option Node)) (paso : ℕ)
    (pasos : List PasoBFS) (camino : List Node)
    (hrecon : AlgoritmoBFS.reconstruir_camino padre final g.nodos.card = some camino) :
    bfsLoop g final (fuel + 1) (final :: resto) vis padre paso pasos =
      some (some camino,
        (pasos ++ [.reg paso ("Procesar nodo: " ++ final) resto vis (some final) none none]) ++
        [.reg (paso + 1)
          ("¡Meta encontrada! Camino: " ++ String.intercalate " → " camino)
          resto vis (some final) (some camino) none]) := by
  rw [bfsLoop.eq_def]
  simp [hrecon]

/-- C9: with `start = goal = s` a known node, both searches return the
single-node path `[s]` (for the informed search every trace record carries
accumulated cost 0). -/
theorem claim_C9 (g : Grafo) (heur : Node → Node → ℚ) (s : Node)
    (hs : s ∈ g.nodos) :
    (∃ tr, AlgoritmoBFS.buscar_camino g s s = some (some [s], tr)) ∧
    (∃ tr, AlgoritmoHillClimbing.buscar_camino g heur s s = some (some [s], tr) ∧
      ∀ r ∈ tr, r.costo_total = 0) := by
  have hpre : ¬(s ∉ g.nodos ∨ s ∉ g.nodos) := by simp [hs]
  obtain ⟨k, hk⟩ : ∃ k, g.nodos.card = k + 1 :=
    ⟨g.nodos.card - 1, by have := Finset.card_pos.mpr ⟨s, hs⟩; omega⟩
  have hrecon : AlgoritmoBFS.reconstruir_camino
      (fun x => if x = s then some none else none) s g.nodos.card = some [s] := by
    rw [hk, AlgoritmoBFS.reconstruir_camino]
    simp [reconstruirAux]
  constructor
  · rw [AlgoritmoBFS.buscar_camino, if_neg hpre, hk,
      bfsLoop_goal_head g s k _ _ _ _ _ [s] hrecon]
    exact ⟨_, rfl⟩
  · rw [AlgoritmoHillClimbing.buscar_camino, if_neg hpre, hcLoop_self]
    refine ⟨_, rfl, ?_⟩
    intro r hr
    simp only [List.mem_singleton] at hr
    rw [hr]

theorem witness_C9 :
    "A" ∈ gABC.nodos ∧
    ((∃ tr, AlgoritmoBFS.buscar_camino gABC "A" "A" = some (some ["A"], tr)) ∧
      (∃ tr, AlgoritmoHillClimbing.buscar_camino gABC
          calcular_heuristica_distancia_lineal "A" "A" = some (some ["A"], tr) ∧
        ∀ r ∈ tr, r.costo_total = 0)) :=
  ⟨by decide,
    claim_C9 gABC calcular_heuristica_distancia_lineal "A" (by decide)⟩

/-! ### BFS: distance, walks and parent chains -/

lemma reachIn_distG {g : Grafo} {s v : Node} (h : Reachable g s v) :
    ReachIn g s v (distG g s v) :=
  Nat.sInf_mem h

lemma distG_le {g : Grafo} {s v : Node} {n : ℕ} (h : ReachIn g s v n) :
    distG g s v ≤ n :=
  Nat.sInf_le h

lemma distG_self (g : Grafo) (s : Node) : distG g s s = 0 :=
  Nat.le_antisymm (distG_le ReachIn.refl) (Nat.zero_le _)

/-- Walking a parent chain with enough fuel produces exactly the chain. -/
lemma reconstruirAux_of_cadena {padre : Node → Option (Option Node)} {v : Node}
    {l : List Node} (h : CadenaPadre padre v l) :
    ∀ fuel, l.length ≤ fuel → ∀ acc,
      reconstruirAux padre fuel (some v) acc = some (l ++ acc) := by
  induction h with
  | root hroot =>
    rename_i v2
    intro fuel hfuel acc
    rcases fuel with _ | f
    · simp at hfuel
    · rw [reconstruirAux, hroot]
      simp [reconstruirAux]
  | step hstep hc ih =>
    rename_i v2 u2 l2
    intro fuel hfuel acc
    rcases fuel with _ | f
    · simp at hfuel
    · rw [reconstruirAux, hstep]
      have h2 := ih f (by simp at hfuel; omega) (v2 :: acc)
      simp [h2]

/-- Parent chains are stable under extensions of the parent map that do not
touch the chain's nodes. -/
lemma cadena_congr {padre padre2 : Node → Option (Option Node)} {v : Node}
    {l : List Node} (h : CadenaPadre padre v l)
    (hagree : ∀ x ∈ l, padre2 x = padre x) : CadenaPadre padre2 v l := by
  induction h with
  | root hroot =>
    exact CadenaPadre.root (by rw [hagree _ (by simp)]; exact hroot)
  | step hstep hc ih =>
    rename_i v' u' l'
    refine CadenaPadre.step (by rw [hagree v' (by simp)]; exact hstep) ?_
    exact ih (fun x hx => hagree x (by simp [hx]))

lemma reachIn_of_trayecto_aux (g : Grafo) :
    ∀ (l : List Node) (u : Node) (k : ℕ) (s : Node), ReachIn g s u k →
      IsTrayecto g (u :: l) →
      ∀ v, (u :: l).getLast? = some v → ReachIn g s v (k + l.length) := by
  intro l
  induction l with
  | nil =>
    intro u k s hr _ v hv
    simp at hv
    rw [← hv]
    simpa using hr
  | cons a t ih =>
    intro u k s hr htr v hv
    rw [IsTrayecto, List.chain'_cons] at htr
    have h2 := ih a (k + 1) s (ReachIn.step hr htr.1) htr.2 v (by simpa using hv)
    simpa [Nat.add_assoc, Nat.add_comm 1 t.length] using h2

/-- A directed walk from `s` to `v` with `n+1` nodes witnesses
`ReachIn g s v n`. -/
lemma reachIn_of_trayecto {g : Grafo} {l : List Node} {s v : Node}
    (htr : IsTrayecto g l) (hh : l.head? = some s) (hl : l.getLast? = some v) :
    ReachIn g s v (l.length - 1) := by
  rcases l with _ | ⟨a, t⟩
  · simp at hh
  · simp only [List.head?_cons, Option.some.injEq] at hh
    subst hh
    simpa using reachIn_of_trayecto_aux g t a 0 a ReachIn.refl htr v hl

/-- A duplicate-free list over a finite set is no longer than the set. -/
lemma length_le_card {l : List Node} {vis : Finset Node} (hnd : l.Nodup)
    (hsub : ∀ x ∈ l, x ∈ vis) : l.length ≤ vis.card := by
  rw [← List.toFinset_card_of_nodup hnd]
  exact Finset.card_le_card (fun x hx => hsub x (List.mem_toFinset.mp hx))

/-- Characterization of the neighbor-expansion loop: it appends exactly the
first occurrences of the not-yet-visited neighbors (`fresh`) to the queue,
the visited set, the parent map (pointing at the dequeued node) and the
`vecinos_nuevos` list. -/
lemma agregarVecinos_spec (u : Node) (vs : List Node) :
    ∀ (cola : List Node) (vis : Finset Node)
      (padre : Node → Option (Option Node)) (nuevos : List Node),
      ∃ (fresh : List Node) (padre2 : Node → Option (Option Node)),
        agregarVecinos u vs cola vis padre nuevos =
          (cola ++ fresh, vis ∪ fresh.toFinset, padre2, nuevos ++ fresh) ∧
        fresh.Nodup ∧ (∀ v ∈ fresh, v ∈ vs ∧ v ∉ vis) ∧
        (∀ v ∈ vs, v ∈ vis ∨ v ∈ fresh) ∧
        (∀ x, x ∉ fresh → padre2 x = padre x) ∧
        (∀ x ∈ fresh, padre2 x = some (some u)) := by
  induction vs with
  | nil =>
    intro cola vis padre nuevos
    refine ⟨[], padre, by simp [agregarVecinos], by simp, by simp, by simp,
      fun x _ => rfl, by simp⟩
  | cons v vs ih =>
    intro cola vis padre nuevos
    by_cases hv : v ∈ vis
    · obtain ⟨fresh, padre2, heq, hnd, hmem, hcov, hoff, hon⟩ := ih cola vis padre nuevos
      refine ⟨fresh, padre2, ?_, hnd, ?_, ?_, hoff, hon⟩
      · rw [agregarVecinos, if_pos hv]; exact heq
      · exact fun w hw => ⟨List.mem_cons_of_mem v (hmem w hw).1, (hmem w hw).2⟩
      · intro w hw
        rcases List.mem_cons.mp hw with rfl | hw
        · exact Or.inl hv
        · exact hcov w hw
    · obtain ⟨fresh, padre2, heq, hnd, hmem, hcov, hoff, hon⟩ :=
        ih (cola ++ [v]) (insert v vis)
          (fun x => if x = v then some (some u) else padre x) (nuevos ++ [v])
      have hvfresh : v ∉ fresh := by
        intro hvf
        exact (hmem v hvf).2 (Finset.mem_insert_self v vis)
      refine ⟨v :: fresh, padre2, ?_, ?_, ?_, ?_, ?_, ?_⟩
      · rw [agregarVecinos, if_neg hv, heq]
        simp [Finset.union_insert, Finset.insert_union, List.append_assoc]
      · exact List.nodup_cons.mpr ⟨hvfresh, hnd⟩
      · intro w hw
        rcases List.mem_cons.mp hw with rfl | hw
        · exact ⟨List.mem_cons_self _ _, hv⟩
        · refine ⟨List.mem_cons_of_mem v (hmem w hw).1, ?_⟩
          intro hwvis
          exact (hmem w hw).2 (Finset.mem_insert_of_mem hwvis)
      · intro w hw
        rcases List.mem_cons.mp hw with rfl | hw
        · exact Or.inr (List.mem_cons_self w fresh)
        · rcases hcov w hw with hcv | hcv
          · rcases Finset.mem_insert.mp hcv with rfl | hcv
            · exact Or.inr (List.mem_cons_self w fresh)
            · exact Or.inl hcv
          · exact Or.inr (List.mem_cons_of_mem v hcv)
      · intro x hx
        have hx2 : x ∉ fresh := fun hc => hx (List.mem_cons_of_mem v hc)
        have hx3 : x ≠ v := fun hc => hx (hc ▸ List.mem_cons_self v fresh)
        rw [hoff x hx2, if_neg hx3]
      · intro x hx
        rcases List.mem_cons.mp hx with rfl | hx
        · rw [hoff x hvfresh, if_pos rfl]
        · exact hon x hx

/-- Crossing lemma: every walk from the start to an unvisited node passes
through a frontier node (visited but still queued) at strictly smaller
distance. -/
lemma bfs_crossing (g : Grafo) (s : Node) (vis : Finset Node) (cola : List Node)
    (hclosed : ∀ u ∈ vis, u ∉ cola → ∀ v ∈ g.obtener_vecinos u, v ∈ vis)
    (hs : s ∈ vis) :
    ∀ (w : Node) (n : ℕ), ReachIn g s w n → w ∉ vis →
      ∃ x ∈ cola, x ∈ vis ∧ distG g s x < n := by
  intro w n h
  induction h with
  | refl => intro hw; exact absurd hs hw
  | step hu hv ih =>
    rename_i u2 v2 n2
    intro hw
    by_cases hu_vis : u2 ∈ vis
    · by_cases hu_cola : u2 ∈ cola
      · exact ⟨u2, hu_cola, hu_vis, lt_of_le_of_lt (distG_le hu) (by omega)⟩
      · exact absurd (hclosed u2 hu_vis hu_cola v2 hv) hw
    · obtain ⟨x, hx, hxv, hxd⟩ := ih hu_vis
      exact ⟨x, hx, hxv, by omega⟩

/-- When the queue is empty the visited set is closed under adjacency, so
it contains every reachable node. -/
lemma reach_sub_of_closed (g : Grafo) (s : Node) (vis : Finset Node)
    (hclosed : ∀ u ∈ vis, ∀ v ∈ g.obtener_vecinos u, v ∈ vis) (hs : s ∈ vis) :
    ∀ (w : Node) (n : ℕ), ReachIn g s w n → w ∈ vis := by
  intro w n h
  induction h with
  | refl => exact hs
  | step hu hv ih =>
    rename_i u2 v2 n2
    exact hclosed u2 ih v2 hv

/-- The loop invariant of `AlgoritmoBFS.buscar_camino`. -/
structure BFSInv (g : Grafo) (inicio final : Node) (cola : List Node)
    (vis : Finset Node) (padre : Node → Option (Option Node)) : Prop where
  vis_sub : vis ⊆ g.nodos
  cola_vis : ∀ v ∈ cola, v ∈ vis
  cola_nd : cola.Nodup
  inicio_vis : inicio ∈ vis
  final_cola : final ∈ vis → final ∈ cola
  closed : ∀ u ∈ vis, u ∉ cola → ∀ v ∈ g.obtener_vecinos u, v ∈ vis
  sorted : (cola.map (distG g inicio)).Sorted (· ≤ ·)
  band : ∀ a ∈ cola, ∀ b ∈ cola, distG g inicio a ≤ distG g inicio b + 1
  recon : ∀ v ∈ vis, ∃ l, CadenaPadre padre v l ∧ IsTrayecto g l ∧
    l.head? = some inicio ∧ l.getLast? = some v ∧
    l.length = distG g inicio v + 1 ∧ l.Nodup ∧ ∀ x ∈ l, x ∈ vis

/-- Unfolding lemma: an empty queue ends the BFS loop with no path. -/
lemma bfsLoop_nil (g : Grafo) (final : Node) (fuel : ℕ) (vis : Finset Node)
    (padre : Node → Option (Option Node)) (paso : ℕ) (pasos : List PasoBFS) :
    bfsLoop g final fuel [] vis padre paso pasos =
      some (none, pasos ++
        [.reg paso "Búsqueda terminada: No existe camino" [] vis none none none]) := by
  rw [bfsLoop.eq_def]

/-- Unfolding lemma: dequeueing a non-goal node expands its neighbors and
continues. -/
lemma bfsLoop_step (g : Grafo) (final : Node) (fuel : ℕ) (u : Node)
    (resto : List Node) (vis : Finset Node)
    (padre : Node → Option (Option Node)) (paso : ℕ) (pasos : List PasoBFS)
    (hne : u ≠ final) (cola2 : List Node) (vis2 : Finset Node)
    (padre2 : Node → Option (Option Node)) (nuevos : List Node)
    (hav : agregarVecinos u (g.obtener_vecinos u) resto vis padre [] =
      (cola2, vis2, padre2, nuevos)) :
    bfsLoop g final (fuel + 1) (u :: resto) vis padre paso pasos =
      if nuevos = [] then
        bfsLoop g final fuel cola2 vis2 padre2 (paso + 1)
          (pasos ++ [.reg paso ("Procesar nodo: " ++ u) resto vis (some u) none none])
      else
        bfsLoop g final fuel cola2 vis2 padre2 (paso + 2)
          ((pasos ++
              [.reg paso ("Procesar nodo: " ++ u) resto vis (some u) none none]) ++
            [.reg (paso + 1)
              ("Agregar vecinos de " ++ u ++ ": " ++ String.intercalate ", " nuevos)
              cola2 vis2 (some u) none (some nuevos)]) := by
  rw [bfsLoop.eq_def]
  simp [hne, hav]

/-- With an empty queue, the invariant forces the goal to be unreachable. -/
lemma bfs_unreachable_of_nil {g : Grafo} {inicio final : Node} {vis : Finset Node}
    {padre : Node → Option (Option Node)}
    (hinv : BFSInv g inicio final [] vis padre) : ¬ Reachable g inicio final := by
  rintro ⟨n, hr⟩
  have hfin : final ∈ vis :=
    reach_sub_of_closed g inicio vis
      (fun u hu v hv => hinv.closed u hu (by simp) v hv) hinv.inicio_vis final n hr
  exact absurd (hinv.final_cola hfin) (by simp)

/-- The master invariant theorem for the BFS loop: with sufficient fuel the
loop returns; a returned path is a walk from `inicio` to `final` of exactly
the minimum number of hops, and a `none` result means the goal is
unreachable. -/
theorem bfsLoop_master (g : Grafo) (inicio final : Node)
    (hady : ∀ (u v : Node), v ∈ g.obtener_vecinos u → v ∈ g.nodos) :
    ∀ (fuel : ℕ) (cola : List Node) (vis : Finset Node)
      (padre : Node → Option (Option Node)) (paso : ℕ) (pasos : List PasoBFS),
      BFSInv g inicio final cola vis padre →
      g.nodos.card - vis.card + cola.length ≤ fuel →
      ∃ res, bfsLoop g final fuel cola vis padre paso pasos = some res ∧
        ((∃ l tr, res = (some l, tr) ∧ EsCaminoDe g l inicio final ∧
            l.length = distG g inicio final + 1 ∧ Reachable g inicio final) ∨
          (∃ tr, res = (none, tr) ∧ ¬ Reachable g inicio final)) := by
  intro fuel
  induction fuel with
  | zero =>
    intro cola vis padre paso pasos hinv hfuel
    rcases cola with _ | ⟨u, resto⟩
    · exact ⟨_, bfsLoop_nil g final 0 vis padre paso pasos,
        Or.inr ⟨_, rfl, bfs_unreachable_of_nil hinv⟩⟩
    · simp only [List.length_cons] at hfuel
      omega
  | succ fuel ih =>
    intro cola vis padre paso pasos hinv hfuel
    rcases cola with _ | ⟨u, resto⟩
    · exact ⟨_, bfsLoop_nil g final (fuel + 1) vis padre paso pasos,
        Or.inr ⟨_, rfl, bfs_unreachable_of_nil hinv⟩⟩
    · by_cases hne : u = final
      · subst hne
        have hfin : u ∈ vis := hinv.cola_vis u (by simp)
        obtain ⟨l, hcad, htr, hh, hl, hlen, hnd, hsubl⟩ := hinv.recon u hfin
        have hrec : AlgoritmoBFS.reconstruir_camino padre u g.nodos.card = some l := by
          rw [AlgoritmoBFS.reconstruir_camino]
          have hlcard : l.length ≤ g.nodos.card :=
            le_trans (length_le_card hnd hsubl) (Finset.card_le_card hinv.vis_sub)
          simpa using reconstruirAux_of_cadena hcad g.nodos.card hlcard []
        refine ⟨_, bfsLoop_goal_head g u fuel resto vis padre paso pasos l hrec,
          Or.inl ⟨l, _, rfl, ⟨htr, hh, hl⟩, hlen, ?_⟩⟩
        exact ⟨l.length - 1, reachIn_of_trayecto htr hh hl⟩
      · obtain ⟨fresh, padre2, hav, hnd_f, hmem_f, hcov_f, hoff, hon⟩ :=
          agregarVecinos_spec u (g.obtener_vecinos u) resto vis padre []
        simp only [List.nil_append] at hav
        have hu_vis : u ∈ vis := hinv.cola_vis u (by simp)
        obtain ⟨lu, hcad_u, htr_u, hh_u, hl_u, hlen_u, hnd_u, hsub_u⟩ :=
          hinv.recon u hu_vis
        have hreach_u : ReachIn g inicio u (distG g inicio u) := by
          have h2 := reachIn_of_trayecto htr_u hh_u hl_u
          rw [hlen_u] at h2
          simpa using h2
        have hhead_min : ∀ x ∈ u :: resto, distG g inicio u ≤ distG g inicio x := by
          intro x hx
          rcases List.mem_cons.mp hx with rfl | hx
          · exact le_refl _
          · have hs := hinv.sorted
            rw [List.map_cons, List.sorted_cons] at hs
            exact hs.1 _ (List.mem_map_of_mem _ hx)
        have hfresh_dist : ∀ v ∈ fresh,
            distG g inicio v = distG g inicio u + 1 := by
          intro v hvf
          obtain ⟨hv_vec, hv_vis⟩ := hmem_f v hvf
          have hle : distG g inicio v ≤ distG g inicio u + 1 :=
            distG_le (ReachIn.step hreach_u hv_vec)
          have hreach_v : ReachIn g inicio v (distG g inicio v) :=
            reachIn_distG ⟨_, ReachIn.step hreach_u hv_vec⟩
          obtain ⟨x, hx_cola, _, hx_lt⟩ := bfs_crossing g inicio vis (u :: resto)
            hinv.closed hinv.inicio_vis v (distG g inicio v) hreach_v hv_vis
          have hxm := hhead_min x hx_cola
          omega
        have hfresh_vis : ∀ v ∈ fresh, v ∉ vis := fun v hv => (hmem_f v hv).2
        have hinv2 : BFSInv g inicio final (resto ++ fresh)
            (vis ∪ fresh.toFinset) padre2 := by
          constructor
          · exact Finset.union_subset hinv.vis_sub
              (fun x hx => hady u x (hmem_f x (List.mem_toFinset.mp hx)).1)
          · intro v hv
            rcases List.mem_append.mp hv with hv | hv
            · exact Finset.mem_union_left _ (hinv.cola_vis v (by simp [hv]))
            · exact Finset.mem_union_right _ (List.mem_toFinset.mpr hv)
          · refine List.nodup_append.mpr
              ⟨(List.nodup_cons.mp hinv.cola_nd).2, hnd_f, ?_⟩
            intro a ha hafresh
            exact hfresh_vis a hafresh (hinv.cola_vis a (by simp [ha]))
          · exact Finset.mem_union_left _ hinv.inicio_vis
          · intro hfv
            rcases Finset.mem_union.mp hfv with hfv | hfv
            · have h2 := hinv.final_cola hfv
              rcases List.mem_cons.mp h2 with rfl | h2
              · exact absurd rfl hne
              · exact List.mem_append_left _ h2
            · exact List.mem_append_right _ (List.mem_toFinset.mp hfv)
          · intro x hx hxc v hv
            rcases Finset.mem_union.mp hx with hx | hx
            · by_cases hxu : x = u
              · subst hxu
                rcases hcov_f v hv with h2 | h2
                · exact Finset.mem_union_left _ h2
                · exact Finset.mem_union_right _ (List.mem_toFinset.mpr h2)
              · have hxresto : x ∉ resto :=
                  fun hc => hxc (List.mem_append_left _ hc)
                have hxcola : x ∉ u :: resto := by
                  simp [hxu, hxresto]
                exact Finset.mem_union_left _ (hinv.closed x hx hxcola v hv)
            · exact absurd
                (List.mem_append_right resto (List.mem_toFinset.mp hx)) hxc
          · rw [List.map_append]
            refine List.pairwise_append.mpr ⟨?_, ?_, ?_⟩
            · have hs := hinv.sorted
              rw [List.map_cons, List.sorted_cons] at hs
              exact hs.2
            · rw [List.pairwise_map]
              refine List.pairwise_of_forall_mem_list ?_
              intro a ha b hb
              rw [hfresh_dist a ha, hfresh_dist b hb]
            · intro a ha b hb
              obtain ⟨x, hx, rfl⟩ := List.mem_map.mp ha
              obtain ⟨y, hy, rfl⟩ := List.mem_map.mp hb
              rw [hfresh_dist y hy]
              exact hinv.band x (by simp [hx]) u (by simp)
          · intro a ha b hb
            rcases List.mem_append.mp ha with ha | ha <;>
              rcases List.mem_append.mp hb with hb | hb
            · exact hinv.band a (by simp [ha]) b (by simp [hb])
            · rw [hfresh_dist b hb]
              have h2 := hinv.band a (by simp [ha]) u (by simp)
              omega
            · rw [hfresh_dist a ha]
              have h2 := hhead_min b (by simp [hb])
              omega
            · rw [hfresh_dist a ha, hfresh_dist b hb]
              omega
          · intro v hv
            rcases Finset.mem_union.mp hv with hv | hv
            · obtain ⟨l, hcad, htr, hh, hl, hlen, hnd, hsubl⟩ := hinv.recon v hv
              have hagree : ∀ x ∈ l, padre2 x = padre x :=
                fun x hx => hoff x (fun hxf => hfresh_vis x hxf (hsubl x hx))
              exact ⟨l, cadena_congr hcad hagree, htr, hh, hl, hlen, hnd,
                fun x hx => Finset.mem_union_left _ (hsubl x hx)⟩
            · have hvf : v ∈ fresh := List.mem_toFinset.mp hv
              have hagree_u : ∀ x ∈ lu, padre2 x = padre x :=
                fun x hx => hoff x (fun hxf => hfresh_vis x hxf (hsub_u x hx))
              have hlu_ne : lu ≠ [] := by
                intro hc; rw [hc] at hl_u; simp at hl_u
              refine ⟨lu ++ [v],
                CadenaPadre.step (hon v hvf) (cadena_congr hcad_u hagree_u),
                ?_, ?_, ?_, ?_, ?_, ?_⟩
              · rw [IsTrayecto, List.chain'_append]
                refine ⟨htr_u, by simp [IsTrayecto], ?_⟩
                intro x hx y hy
                simp only [List.head?_cons, Option.mem_def, Option.some.injEq] at hy
                rw [hl_u] at hx
                simp only [Option.mem_def, Option.some.injEq] at hx
                rw [← hx, ← hy]
                exact (hmem_f v hvf).1
              · rcases lu with _ | ⟨a, t⟩
                · exact absurd rfl hlu_ne
                · simpa using hh_u
              · exact List.getLast?_concat _
              · rw [List.length_append, hlen_u, hfresh_dist v hvf]
                simp
              · rw [List.nodup_append]
                refine ⟨hnd_u, by simp, ?_⟩
                intro a ha hav2
                simp only [List.mem_singleton] at hav2
                subst hav2
                exact hfresh_vis a hvf (hsub_u a ha)
              · intro x hx
                rcases List.mem_append.mp hx with hx | hx
                · exact Finset.mem_union_left _ (hsub_u x hx)
                · simp only [List.mem_singleton] at hx
                  subst hx
                  exact Finset.mem_union_right _ (List.mem_toFinset.mpr hvf)
        have hfuel2 : g.nodos.card - (vis ∪ fresh.toFinset).card +
            (resto ++ fresh).length ≤ fuel := by
          have hdisj : Disjoint vis fresh.toFinset := by
            rw [Finset.disjoint_right]
            intro a ha
            exact hfresh_vis a (List.mem_toFinset.mp ha)
          have hcard2 : (vis ∪ fresh.toFinset).card = vis.card + fresh.length := by
            rw [Finset.card_union_of_disjoint hdisj, List.toFinset_card_of_nodup hnd_f]
          have hle2 : (vis ∪ fresh.toFinset).card ≤ g.nodos.card :=
            Finset.card_le_card hinv2.vis_sub
          have hle1 : vis.card ≤ g.nodos.card := Finset.card_le_card hinv.vis_sub
          simp only [List.length_append]
          simp only [List.length_cons] at hfuel
          omega
        rw [bfsLoop_step g final fuel u resto vis padre paso pasos hne
          (resto ++ fresh) (vis ∪ fresh.toFinset) padre2 fresh hav]
        by_cases hnil : fresh = []
        · rw [if_pos hnil]
          exact ih (resto ++ fresh) (vis ∪ fresh.toFinset) padre2 (paso + 1) _
            hinv2 hfuel2
        · rw [if_neg hnil]
          exact ih (resto ++ fresh) (vis ∪ fresh.toFinset) padre2 (paso + 2) _
            hinv2 hfuel2

/-- The invariant holds at BFS initialization. -/
lemma bfs_initial_inv (g : Grafo) (inicio final : Node) (hi : inicio ∈ g.nodos) :
    BFSInv g inicio final [inicio] {inicio}
      (fun x => if x = inicio then some none else none) := by
  constructor
  · exact Finset.singleton_subset_iff.mpr hi
  · intro v hv; simp only [List.mem_singleton] at hv; simp [hv]
  · simp
  · simp
  · intro h; simp only [Finset.mem_singleton] at h; simp [h]
  · intro x hx hxc
    exfalso
    simp only [Finset.mem_singleton] at hx
    exact hxc (by simp [hx])
  · simp
  · intro a ha b hb
    simp only [List.mem_singleton] at ha hb
    subst ha; subst hb
    omega
  · intro v hv
    simp only [Finset.mem_singleton] at hv
    subst hv
    refine ⟨[v], CadenaPadre.root (by simp), by simp [IsTrayecto], by simp,
      by simp, by simp [distG_self], by simp, by simp⟩

lemma Grafo.WF.aristaEn_of_vecino {g : Grafo} (hwf : g.WF) {a b : Node}
    (hb : b ∈ g.obtener_vecinos a) : AristaEn g a b := by
  rw [Grafo.obtener_vecinos] at hb
  obtain ⟨vp, hvp, rfl⟩ := List.mem_map.mp hb
  exact hwf.aristaEn_of_ady hvp

lemma hady_of_wf {g : Grafo} (hwf : g.WF) :
    ∀ (u v : Node), v ∈ g.obtener_vecinos u → v ∈ g.nodos := by
  intro u v hv
  rw [Grafo.obtener_vecinos] at hv
  obtain ⟨vp, hvp, rfl⟩ := List.mem_map.mp hv
  exact (hwf.mem_nodos_of_ady hvp).2

/-- C1: for every well-formed graph with known `start`/`goal` and the goal
reachable from the start, the blind BFS search returns a directed path from
`start` to `goal` whose number of edges (= number of nodes minus one) is
minimal among all directed paths from `start` to `goal`, irrespective of
the edge weights. -/
theorem claim_C1 (g : Grafo) (inicio final : Node) (hwf : g.WF)
    (hi : inicio ∈ g.nodos) (hf : final ∈ g.nodos)
    (hreach : ∃ p, EsCaminoDe g p inicio final) :
    ∃ l tr, AlgoritmoBFS.buscar_camino g inicio final = some (some l, tr) ∧
      EsCaminoDe g l inicio final ∧
      ∀ p, EsCaminoDe g p inicio final → l.length ≤ p.length := by
  have hpre : ¬(inicio ∉ g.nodos ∨ final ∉ g.nodos) := by simp [hi, hf]
  obtain ⟨res, hres, hdisj⟩ := bfsLoop_master g inicio final (hady_of_wf hwf)
    g.nodos.card [inicio] {inicio}
    (fun x => if x = inicio then some none else none) 1
    [.reg 0 ("Inicializar: Cola=[" ++ inicio ++ "], Visitados=[" ++ inicio ++ "]")
      [inicio] {inicio} (some inicio) none none]
    (bfs_initial_inv g inicio final hi)
    (by
      have hpos : 0 < g.nodos.card := Finset.card_pos.mpr ⟨inicio, hi⟩
      simp only [List.length_singleton, Finset.card_singleton]
      omega)
  rw [AlgoritmoBFS.buscar_camino, if_neg hpre]
  rcases hdisj with ⟨l, tr, rfl, hcam, hlen, _⟩ | ⟨tr, rfl, hnreach⟩
  · refine ⟨l, tr, hres, hcam, ?_⟩
    intro p hp
    have hd := distG_le (reachIn_of_trayecto hp.1 hp.2.1 hp.2.2)
    have hp_ne : p ≠ [] := by
      intro hc
      rw [hc] at hp
      simp [EsCaminoDe] at hp
    have hp_pos : 1 ≤ p.length := List.length_pos.mpr hp_ne
    omega
  · obtain ⟨p, hp⟩ := hreach
    exact absurd ⟨p.length - 1, reachIn_of_trayecto hp.1 hp.2.1 hp.2.2⟩ hnreach

theorem witness_C1 :
    gABC.WF ∧ "A" ∈ gABC.nodos ∧ "C" ∈ gABC.nodos ∧
    EsCaminoDe gABC ["A", "C"] "A" "C" ∧
    (∃ l tr, AlgoritmoBFS.buscar_camino gABC "A" "C" = some (some l, tr) ∧
      EsCaminoDe gABC l "A" "C" ∧
      ∀ p, EsCaminoDe gABC p "A" "C" → l.length ≤ p.length) :=
  ⟨wf_gABC, by decide, by decide, by decide,
    claim_C1 gABC "A" "C" wf_gABC (by decide) (by decide) ⟨["A", "C"], by decide⟩⟩

/-- C10: whenever either search returns a path, it starts at `start`, ends
at `goal`, and each consecutive pair is joined by a directed edge recorded
in the graph. -/
theorem claim_C10 (g : Grafo) (hwf : g.WF) :
    (∀ (inicio final : Node) (l : List Node) (tr : List PasoBFS),
      AlgoritmoBFS.buscar_camino g inicio final = some (some l, tr) →
      l.head? = some inicio ∧ l.getLast? = some final ∧
        List.Chain' (AristaEn g) l) ∧
    (∀ (heur : Node → Node → ℚ) (inicio objetivo : Node) (l : List Node)
        (tr : List RegistroHC),
      AlgoritmoHillClimbing.buscar_camino g heur inicio objetivo =
        some (some l, tr) →
      l.head? = some inicio ∧ l.getLast? = some objetivo ∧
        List.Chain' (AristaEn g) l) := by
  constructor
  · intro inicio final l tr h
    by_cases hpre : inicio ∉ g.nodos ∨ final ∉ g.nodos
    · rw [AlgoritmoBFS.buscar_camino, if_pos hpre] at h
      exact absurd h (by simp)
    · have hi : inicio ∈ g.nodos := by
        rcases not_or.mp hpre with ⟨h1, _⟩
        exact not_not.mp h1
      rw [AlgoritmoBFS.buscar_camino, if_neg hpre] at h
      obtain ⟨res, hres, hdisj⟩ := bfsLoop_master g inicio final (hady_of_wf hwf)
        g.nodos.card [inicio] {inicio}
        (fun x => if x = inicio then some none else none) 1
        [.reg 0 ("Inicializar: Cola=[" ++ inicio ++ "], Visitados=[" ++ inicio ++ "]")
          [inicio] {inicio} (some inicio) none none]
        (bfs_initial_inv g inicio final hi)
        (by
          have hpos : 0 < g.nodos.card := Finset.card_pos.mpr ⟨inicio, hi⟩
          simp only [List.length_singleton, Finset.card_singleton]
          omega)
      rw [hres] at h
      have hreseq : res = (some l, tr) := by injection h
      rcases hdisj with ⟨l2, tr2, heq, hcam, _, _⟩ | ⟨tr2, heq, _⟩
      · rw [heq] at hreseq
        have hl2 : l2 = l := by
          have := congrArg Prod.fst hreseq
          simpa using this
        subst hl2
        exact ⟨hcam.2.1, hcam.2.2,
          hcam.1.imp (fun _ _ hab => hwf.aristaEn_of_vecino hab)⟩
      · rw [heq] at hreseq
        have := congrArg Prod.fst hreseq
        simp at this
  · intro heur inicio objetivo l tr h
    by_cases hpre : inicio ∉ g.nodos ∨ objetivo ∉ g.nodos
    · rw [AlgoritmoHillClimbing.buscar_camino, if_pos hpre] at h
      exact absurd h (by simp)
    · rw [AlgoritmoHillClimbing.buscar_camino, if_neg hpre] at h
      obtain ⟨_, htr2, hh2, hl2⟩ := hcLoop_path g heur objetivo (g.nodos.card * 2)
        (g.nodos.card * 2) inicio [inicio] 0 {inicio} 1 _
        (by simp) (by simp) (by simp) (by simp [IsTrayecto]) l tr h
      refine ⟨by simpa using hh2, hl2, ?_⟩
      exact htr2.imp (fun _ _ hab => hwf.aristaEn_of_vecino hab)

theorem witness_C10 :
    gABC.WF ∧
    ((["A", "C"] : List Node).head? = some "A" ∧
      (["A", "C"] : List Node).getLast? = some "C" ∧
      List.Chain' (AristaEn gABC) ["A", "C"]) ∧
    ((["A", "B", "C"] : List Node).head? = some "A" ∧
      (["A", "B", "C"] : List Node).getLast? = some "C" ∧
      List.Chain' (AristaEn gABC) ["A", "B", "C"]) :=
  ⟨wf_gABC,
    (claim_C10 gABC wf_gABC).1 "A" "C" ["A", "C"] _ rfl,
    (claim_C10 gABC wf_gABC).2 calcular_heuristica_distancia_lineal "A" "C"
      ["A", "B", "C"] trazaABC hc_gABC_run⟩
